import Mathlib

/-!
Verification development for the pixl-xml JavaScript XML library
(src/xml.js and the near-duplicate copy src/unnamed/part_000).

Strings are modelled as `List Char` (JS UTF-16 code units; all inputs of
interest are ASCII).  JS objects are modelled as insertion-ordered
association lists — faithful for the uses in this code because every key
enumeration the code performs is either over a single-key object or is
immediately sorted.

The two implementation copies are byte-identical except that
`part_000`'s `XML.parse` replaces a childless, attribute-less, data-less
leaf by the empty string (`else if (!num_leaf_keys) leaf = '';`), which
`xml.js` omits, and cosmetic differences (regex escaping, `1` vs `true`)
with no semantic effect.  The parser below is therefore parameterised by
the flag `emptyChildlessLeaf`: with `false` it embeds `XML.parse` of
src/xml.js, with `true` it embeds `XML.parse` of src/unnamed/part_000.
-/

set_option maxHeartbeats 1000000

abbrev Str := List Char

/-- JS character class `\w` = `[A-Za-z0-9_]` (no `u` flag, ASCII only). -/
def isWordChar (c : Char) : Bool := c.isAlpha || c.isDigit || c = '_'

/-- Character class `[\w\-:.]` used for tag names (`patStandardTag`,
`re_valid_tag_name`, `patAttrib`). -/
def isNameChar (c : Char) : Bool := isWordChar c || c = '-' || c = ':' || c = '.'

/-- Character class `[\w\-:]` used for PI and DOCTYPE names. -/
def isPiNameChar (c : Char) : Bool := isWordChar c || c = '-' || c = ':'

/-- JS whitespace class `\s` (same set as `String.prototype.trim`). -/
def isJsWs (c : Char) : Bool :=
  c = ' ' || c = '\t' || c = '\n' || c = '\r' || c.val = 0x0B || c.val = 0x0C ||
  c.val = 0xA0 || c.val = 0x1680 || (0x2000 ≤ c.val && c.val ≤ 0x200A) ||
  c.val = 0x2028 || c.val = 0x2029 || c.val = 0x202F || c.val = 0x205F ||
  c.val = 0x3000 || c.val = 0xFEFF

/-- JS regex `.` (no `s` flag): any char except line terminators. -/
def isDotChar (c : Char) : Bool :=
  !(c = '\n' || c = '\r' || c.val = 0x2028 || c.val = 0x2029)

/-- `trim` of src/xml.js line 404: `text.trim()` (part_000 lines 440-452
strips `^\s+` and `\s+$`, the same function on the JS whitespace set). -/
def trim (s : Str) : Str :=
  ((s.dropWhile isJsWs).reverse.dropWhile isJsWs).reverse

/-- Drop a leading `\s*` run. -/
def stripWs (s : Str) : Str := s.dropWhile isJsWs

/-- Require `\s+` (at least one whitespace char) then drop the whole run. -/
def reqWs (s : Str) : Option Str :=
  match s with
  | c :: r => if isJsWs c then some (stripWs r) else none
  | [] => none

/-- `re_valid_tag_name = /^\w[\w\-:.]*$/` (line 30 of both copies). -/
def validTagName (s : Str) : Bool :=
  match s with
  | c :: rest => isWordChar c && rest.all isNameChar
  | [] => false

/-- ASCII lower-casing, modelling `String.prototype.toLowerCase` on the
ASCII names this library manipulates. -/
def toLowerStr (s : Str) : Str := s.map Char.toLower

/-! ## The JS value universe

Parse trees are built from strings, arrays and plain objects. -/

inductive JVal where
  | str : Str → JVal
  | arr : List JVal → JVal
  | obj : List (Str × JVal) → JVal

abbrev JObj := List (Str × JVal)

/-- Association-list lookup: JS property read `m[k]`. -/
def getV (m : JObj) (k : Str) : Option JVal :=
  (m.find? (fun p => p.1 == k)).map (·.2)

/-- JS property write `m[k] = v`: overwrite in place, else append. -/
def setV : JObj → Str → JVal → JObj
  | [], k, v => [(k, v)]
  | (k', v') :: rest, k, v =>
    if k' == k then (k', v) :: rest else (k', v') :: setV rest k v

/-- JS `delete m[k]` (keys are unique in JS objects). -/
def delV : JObj → Str → JObj
  | [], _ => []
  | (k', v') :: rest, k => if k' == k then rest else (k', v') :: delV rest k

/-- `firstKey` of src/xml.js lines 568-575: first key of a hash or null. -/
def firstKey (m : JObj) : Option Str := m.head?.map (·.1)

/-- `numKeys` of src/xml.js lines 607-614. -/
def numKeys (m : JObj) : Nat := m.length

def joinComma : List Str → Str
  | [] => []
  | [s] => s
  | s :: rest => s ++ ',' :: joinComma rest

mutual
/-- JS string coercion (`String(v)`), as performed by `+` / `+=` when a
non-string has been stored where the parser expects text. -/
def jsToStr : JVal → Str
  | .str s => s
  | .obj _ => ("[object Object]").toList
  | .arr xs => joinComma (jsToStrL xs)

def jsToStrL : List JVal → List Str
  | [] => []
  | v :: vs => jsToStr v :: jsToStrL vs
end

mutual
/-- Structural size, used as recursion fuel for the serialiser. -/
def jsize : JVal → Nat
  | .str _ => 1
  | .arr xs => 1 + jsizeL xs
  | .obj m => 1 + jsizeM m

def jsizeL : List JVal → Nat
  | [] => 0
  | v :: vs => jsize v + jsizeL vs

def jsizeM : List (Str × JVal) → Nat
  | [] => 0
  | p :: ps => jsize p.2 + jsizeM ps
end

/-! ## Entity codec

`String.prototype.replace(/lit/g, repl)`: global, non-overlapping,
left-to-right replacement of a literal pattern; scanning resumes after
the replacement text.  Defined with explicit fuel (one unit per input
character) so that it both terminates structurally and evaluates by
`rfl`; `replaceJS` instantiates the fuel sufficiently. -/

def replaceF (pat repl : Str) : Nat → Str → Str
  | _, [] => []
  | 0, s => s
  | fuel + 1, c :: rest =>
    if pat.isPrefixOf (c :: rest) then
      repl ++ replaceF pat repl fuel ((c :: rest).drop pat.length)
    else
      c :: replaceF pat repl fuel rest

def replaceJS (pat repl s : Str) : Str := replaceF pat repl s.length s

/-- `encodeEntities` (src/xml.js lines 409-422): escape `&`, `<`, `>`,
ampersand first. -/
def encodeEntities (s : Str) : Str :=
  replaceJS ['>'] (("&gt;").toList)
    (replaceJS ['<'] (("&lt;").toList)
      (replaceJS ['&'] (("&amp;").toList) s))

/-- `encodeAttribEntities` (src/xml.js lines 424-440): as
`encodeEntities` plus `"` and `'`. -/
def encodeAttribEntities (s : Str) : Str :=
  replaceJS ['\''] (("&apos;").toList)
    (replaceJS ['"'] (("&quot;").toList)
      (replaceJS ['>'] (("&gt;").toList)
        (replaceJS ['<'] (("&lt;").toList)
          (replaceJS ['&'] (("&amp;").toList) s))))

/-- `decodeEntities` (src/xml.js lines 442-458): reverse the five
entities, ampersand last, with the `text.match(/&/)` fast path. -/
def decodeEntities (s : Str) : Str :=
  if s.contains '&' then
    replaceJS (("&amp;").toList) ['&']
      (replaceJS (("&apos;").toList) ['\'']
        (replaceJS (("&quot;").toList) ['"']
          (replaceJS (("&gt;").toList) ['>']
            (replaceJS (("&lt;").toList) ['<'] s))))
  else s

/-! ## Tag scanner

`patTag = /([^<]*?)<([^>]+)>/g` (line 584).  `exec` from the current
cursor finds the earliest match: the candidate `<` positions are tried in
order; a `<` immediately followed by `>` cannot anchor a match (the body
`[^>]+` needs at least one char) and the scan restarts just after it,
resetting the lazily-matched `before` text; if no `>` remains the exec
fails.  The cursor is represented by the remaining suffix of the text. -/

/-- One `patNextClose.exec` (`/([^>]*?)>/g`, line 595): the text up to
the next `>` plus the rest after it. -/
def nextClose (s : Str) : Option (Str × Str) :=
  match s.dropWhile (· ≠ '>') with
  | '>' :: r => some (s.takeWhile (· ≠ '>'), r)
  | _ => none

def nextTagGo : Str → Str → Option (Str × Str × Str)
  | _, [] => none
  | acc, c :: r =>
    if c = '<' then
      match nextClose r with
      | some (seg, r2) =>
        if seg.isEmpty then nextTagGo [] r else some (acc.reverse, seg, r2)
      | none => none
    else nextTagGo (c :: acc) r

/-- One `patTag.exec`: returns (preceding text, tag body, rest of text
after the closing `>`), or none when no further tag exists. -/
def nextTagS (s : Str) : Option (Str × Str × Str) := nextTagGo [] s

/-! ## Tag-body classifiers (lines 585-601) -/

/-- `patSpecialTag = /^\s*([!?])/`. -/
def isSpecialTag (body : Str) : Bool :=
  match stripWs body with
  | '!' :: _ => true
  | '?' :: _ => true
  | _ => false

/-- `patPITag = /^\s*\?/`. -/
def isPITag (body : Str) : Bool :=
  match stripWs body with
  | '?' :: _ => true
  | _ => false

/-- `patCommentTag`, matching `^\s*!` then two hyphens. -/
def isCommentTag (body : Str) : Bool := ("!--").toList.isPrefixOf (stripWs body)

/-- `patDTDTag = /^\s*!DOCTYPE/`. -/
def isDTDTag (body : Str) : Bool := ("!DOCTYPE").toList.isPrefixOf (stripWs body)

/-- `patCDATATag = /^\s*!\s*\[\s*CDATA/`. -/
def isCDATATag (body : Str) : Bool :=
  match stripWs body with
  | '!' :: r =>
    match stripWs r with
    | '[' :: r2 => ("CDATA").toList.isPrefixOf (stripWs r2)
    | _ => false
  | _ => false

/-- `patPINode = /^\s*\?\s*([\w\-:]+)\s*(.*)$/`: after the name and a
maximal whitespace run, the remainder must be free of line terminators
(`.` cannot cross them and `$` only matches at the very end). -/
def piNodeOk (body : Str) : Bool :=
  match stripWs body with
  | '?' :: r =>
    let r2 := stripWs r
    let name := r2.takeWhile isPiNameChar
    if name.isEmpty then false
    else (stripWs (r2.dropWhile isPiNameChar)).all isDotChar
  | _ => false

/-- `patStandardTag = /^\s*(\/?)([\w\-:.]+)\s*([\s\S]*)$/`: returns
(closing-slash?, tag name, attribute remainder). -/
def parseStandardTag (body : Str) : Option (Bool × Str × Str) :=
  match stripWs body with
  | '/' :: r2 =>
    let name := r2.takeWhile isNameChar
    if name.isEmpty then none
    else some (true, name, stripWs (r2.dropWhile isNameChar))
  | r =>
    let name := r.takeWhile isNameChar
    if name.isEmpty then none
    else some (false, name, stripWs (r.dropWhile isNameChar))

/-- `patSelfClosing = /\/\s*$/`. -/
def selfClosingCheck (attribsRaw : Str) : Bool :=
  match stripWs attribsRaw.reverse with
  | '/' :: _ => true
  | _ => false

/-! ## Attribute scanner

`patAttrib = /([\w\-:.]+)\s*=\s*(["'])([^\2]*?)\2/g` (line 592).  Inside
the character class `\2` is the octal escape for U+0002, so the value is
the (lazy) run of non-U+0002 chars up to the next occurrence of the
opening quote.  The name/whitespace/`=` parts are disjoint character
classes, so matching at a given start position is deterministic; on
failure the engine retries from the next position. -/

def attribStep : Str → Option (Str × Str × Str)
  | [] => none
  | c :: r =>
    if isNameChar c then
      match stripWs (r.dropWhile isNameChar) with
      | '=' :: r2 =>
        match stripWs r2 with
        | q :: r3 =>
          if q = '"' || q = '\'' then
            match r3.dropWhile (· ≠ q) with
            | _ :: r4 =>
              if (r3.takeWhile (· ≠ q)).contains (Char.ofNat 2) then attribStep r
              else some (c :: r.takeWhile isNameChar, r3.takeWhile (· ≠ q), r4)
            | [] => attribStep r
          else attribStep r
        | [] => attribStep r
      | _ => attribStep r
    else attribStep r

def attribScanF : Nat → Str → List (Str × Str)
  | 0, _ => []
  | fuel + 1, s =>
    match attribStep s with
    | none => []
    | some (k, v, rest) => (k, v) :: attribScanF fuel rest

/-- The `while (matches = this.patAttrib.exec(attribsRaw))` loop of
`XML.parse` (lines 150-154): all attribute matches in order. -/
def attribScan (s : Str) : List (Str × Str) := attribScanF (s.length + 1) s

/-! ## Greedy special-tag sub-scanners (comment / inline DTD / CDATA)

Each repeatedly consumes the next `>`-terminated raw segment, splicing
the `>` back, until the accumulated tag body satisfies the
kind-specific terminator test (lines 282-297, 299-332, 334-356). -/

inductive ScanRes where
  | ok : Str → Str → ScanRes
  | unclosed : Str → ScanRes
  | fuelOut : ScanRes

def scanUntilF (done : Str → Bool) : Nat → Str → Str → ScanRes
  | 0, _, _ => .fuelOut
  | fuel + 1, tag, s =>
    if done tag then .ok tag s
    else
      match nextClose s with
      | none => .unclosed tag
      | some (seg, rest) => scanUntilF done fuel (tag ++ '>' :: seg) rest

/-- Run a greedy sub-scan with sufficient fuel (each iteration consumes
at least one character of the remaining source). -/
def scanUntil (done : Str → Bool) (tag s : Str) : ScanRes :=
  scanUntilF done (s.length + 1) tag s

/-- `patEndComment`: the body ends with two hyphens. -/
def endComment (tag : Str) : Bool := ("--").toList.isSuffixOf tag

/-- `patEndDTD = /]$/`. -/
def endDTD (tag : Str) : Bool := ("]").toList.isSuffixOf tag

/-- `patEndCDATA = /]]$/`. -/
def endCDATA (tag : Str) : Bool := ("]]").toList.isSuffixOf tag

/-- `patExternalDTDNode`: `^\s*!DOCTYPE\s+([\w\-:]+)\s+(SYSTEM|PUBLIC)\s+"([^"]+)"`. -/
def externalDTDOk (body : Str) : Bool :=
  match (stripWs body).dropPrefix? (("!DOCTYPE").toList) with
  | none => false
  | some r1 =>
    match reqWs r1 with
    | none => false
    | some r2 =>
      let name := r2.takeWhile isPiNameChar
      if name.isEmpty then false
      else
        match reqWs (r2.dropWhile isPiNameChar) with
        | none => false
        | some r4 =>
          let afterKw :=
            match r4.dropPrefix? (("SYSTEM").toList) with
            | some r5 => some r5
            | none => r4.dropPrefix? (("PUBLIC").toList)
          match afterKw with
          | none => false
          | some r5 =>
            match reqWs r5 with
            | none => false
            | some r6 =>
              match r6 with
              | '"' :: r7 =>
                let v := r7.takeWhile (· ≠ '"')
                if v.isEmpty then false
                else
                  match r7.dropWhile (· ≠ '"') with
                  | '"' :: _ => true
                  | _ => false
              | _ => false

/-- `patInlineDTDNode = /^\s*!DOCTYPE\s+([\w\-:]+)\s+\[/`. -/
def inlineDTDOk (body : Str) : Bool :=
  match (stripWs body).dropPrefix? (("!DOCTYPE").toList) with
  | none => false
  | some r1 =>
    match reqWs r1 with
    | none => false
    | some r2 =>
      let name := r2.takeWhile isPiNameChar
      if name.isEmpty then false
      else
        match reqWs (r2.dropWhile isPiNameChar) with
        | none => false
        | some r4 =>
          match r4 with
          | '[' :: _ => true
          | _ => false

/-- `patDTDNode = /^\s*!DOCTYPE\s+([\w\-:]+)\s+\[(.*)]/`: after the `[`,
a `]` must occur within the maximal line-terminator-free run. -/
def dtdNodeOk (body : Str) : Bool :=
  match (stripWs body).dropPrefix? (("!DOCTYPE").toList) with
  | none => false
  | some r1 =>
    match reqWs r1 with
    | none => false
    | some r2 =>
      let name := r2.takeWhile isPiNameChar
      if name.isEmpty then false
      else
        match reqWs (r2.dropWhile isPiNameChar) with
        | none => false
        | some r4 =>
          match r4 with
          | '[' :: t => (t.takeWhile isDotChar).contains ']'
          | _ => false

/-- Start index of the last occurrence of `]]` (greedy `([^]*)]]`). -/
def lastDDIdx : Nat → Str → Option Nat
  | i, c1 :: c2 :: r =>
    match lastDDIdx (i + 1) (c2 :: r) with
    | some j => some j
    | none => if c1 = ']' && c2 = ']' then some i else none
  | _, _ => none

/-- `patCDATANode = /^\s*!\s*\[\s*CDATA\s*\[([^]*)]]/`: extract the
payload (greedy capture up to the last `]]`). -/
def cdataExtract (tag : Str) : Option Str :=
  match stripWs tag with
  | '!' :: r =>
    match stripWs r with
    | '[' :: r2 =>
      match (stripWs r2).dropPrefix? (("CDATA").toList) with
      | none => none
      | some r3 =>
        match stripWs r3 with
        | '[' :: t =>
          match lastDDIdx 0 t with
          | some j => some (t.take j)
          | none => none
        | _ => none
    | _ => none
  | _ => none

/-! ## Parser configuration and state -/

/-- Per-instance options, after constructor normalisation (lines 33-60):
`emptyChildlessLeaf` selects between the two implementation copies, see
the header comment. -/
structure Cfg where
  preserveDocumentNode : Bool
  preserveAttributes : Bool
  preserveWhitespace : Bool
  lowerCase : Bool
  forceArrays : Bool
  attribsKey : Str
  dataKey : Str
  emptyChildlessLeaf : Bool

/-- One entry of `this.errors` (lines 226-231); `type` is always
`'Parse'` and `code` is never set. -/
structure PError where
  key : Str
  text : Str
  line : Int

/-- `getError` (lines 242-261) for a `Parse`-type, code-less error. -/
def getErrorStr (e : PError) : Str :=
  let t1 := ("Parse Error: ").toList ++ e.key
  let t2 := if e.line = 0 then t1 else t1 ++ (" on line ").toList ++ (toString e.line).toList
  if e.text.isEmpty then t2 else t2 ++ (": ").toList ++ e.text

/-- `getLastError` (lines 263-269). -/
def getLastError (errors : List PError) : Str :=
  match errors.getLast? with
  | some e => getErrorStr e
  | none => []

/-- Mutable parser state: the shared `patTag.lastIndex` cursor plus the
three accumulated lists. -/
structure PState where
  lastIndex : Nat
  errors : List PError
  piNodeList : List Str
  dtdNodeList : List Str

/-- `throwParseError` (lines 219-235): record the error with its line
number, and produce the message of the raised `Error` (which is
`getLastError()` of the state just after the push). -/
def pushError (text key tag : Str) (st : PState) : Str × PState :=
  let parsedSource := text.take st.lastIndex
  let line : Int := (parsedSource.count '\n' : Int) + 1 - (tag.count '\n' : Int)
  let e : PError := ⟨key, '<' :: (tag ++ ['>']), line⟩
  let st' := { st with errors := st.errors ++ [e] }
  (getLastError st'.errors, st')

/-- Outcome of a parser fragment: normal result, raised JS exception
(which nothing in this library catches), or fuel exhaustion (proved
unreachable for the fuel chosen by `runXML`). -/
inductive PRes (α : Type) where
  | ok : α → PRes α
  | err : Str → PState → PRes α
  | fuelOut : PRes α

/-- Lines 78-85 and 96-103: append decoded (and, unless
`preserveWhitespace`, trimmed) text to the branch's data entry, with the
JS `+=` string coercion when the existing entry is not a string. -/
def dataAppend (cfg : Cfg) (branch : JObj) (raw : Str) : JObj :=
  let chunk := if cfg.preserveWhitespace then decodeEntities raw else trim (decodeEntities raw)
  match getV branch cfg.dataKey with
  | some old => setV branch cfg.dataKey (.str (jsToStr old ++ ' ' :: chunk))
  | none => setV branch cfg.dataKey (.str chunk)

/-- Lines 150-154: store scanned attributes into a fresh hash. -/
def buildAttribs (pairs : List (Str × Str)) : JObj :=
  pairs.foldl (fun m p => setV m p.1 (.str p.2)) []

/-- Lines 169-173 (and part_000 lines 208-214): compress a leaf that is
text-only; with `emptyChildlessLeaf`, also empty a childless leaf to `''`. -/
def collapseLeaf (cfg : Cfg) (leaf : JObj) : JVal :=
  match getV leaf cfg.dataKey with
  | some d => if numKeys leaf = 1 then d else .obj leaf
  | none =>
    if cfg.emptyChildlessLeaf && numKeys leaf = 0 then .str [] else .obj leaf

/-- Lines 175-187: attach a finished leaf under its tag name, coalescing
repeated names into arrays, honouring `forceArrays` off the root. -/
def attachLeaf (cfg : Cfg) (isRoot : Bool) (branch : JObj) (nodeName : Str) (leaf : JVal) : JObj :=
  match getV branch nodeName with
  | some (.arr xs) => setV branch nodeName (.arr (xs ++ [leaf]))
  | some old => setV branch nodeName (.arr [old, leaf])
  | none =>
    if cfg.forceArrays && !isRoot then setV branch nodeName (.arr [leaf])
    else setV branch nodeName leaf

/-! ## The recursive tree builder

`XML.parse` (lines 62-217).  The main `while` loop and the recursive
descent are expressed as one fuelled recursion: a loop iteration
continues as a tail call, a non-self-closing standard tag descends into
a fresh leaf.  The cursor is the remaining suffix `s` of `text`;
`st.lastIndex` mirrors `patTag.lastIndex` (kept for line numbers,
including its reset to 0 when `exec` fails).  The `ok` result carries
the final branch, the remaining suffix, and the state; reaching a
matching closing tag and exhausting the tag stream both end the loop as
in the source (the `this.error()` checks after recursion are dead code
because `throwParseError` always throws, which the `err` case models).
The root postlude (lines 202-216, `branch === this.tree`) lives in
`runXML`. -/
def parseNodeStep (cfg : Cfg) (text : Str)
    (rec : Str → Option Str → Bool → JObj → PState → PRes (JObj × Str × PState))
    (s : Str) (name : Option Str) (isRoot : Bool) (branch : JObj) (st : PState) :
    PRes (JObj × Str × PState) :=
  match nextTagS s with
  | none =>
    let st := { st with lastIndex := 0 }
    match name with
    | some n =>
      let r := pushError text (("Missing closing tag (expected </").toList ++ n ++ (">)").toList) n st
      .err r.1 r.2
    | none => .ok (branch, s, st)
  | some (before, body, restAfter) =>
    let st := { st with lastIndex := text.length - restAfter.length }
    let branch := if before.any (fun c => !isJsWs c) then dataAppend cfg branch before else branch
    if isSpecialTag body then
      if isPITag body then
        if piNodeOk body then
          rec restAfter name isRoot branch
            { st with piNodeList := st.piNodeList ++ [body] }
        else
          let r := pushError text (("Malformed processor instruction").toList) body st
          .err r.1 r.2
      else if isCommentTag body then
        match scanUntil endComment body restAfter with
        | .ok _ rest2 =>
          rec rest2 name isRoot branch
            { st with lastIndex := text.length - rest2.length }
        | .unclosed tagAcc =>
          let r := pushError text (("Unclosed comment tag").toList) tagAcc st
          .err r.1 r.2
        | .fuelOut => .fuelOut
      else if isDTDTag body then
        if externalDTDOk body then
          rec restAfter name isRoot branch
            { st with dtdNodeList := st.dtdNodeList ++ [body] }
        else if inlineDTDOk body then
          match scanUntil endDTD body restAfter with
          | .ok tagFull rest2 =>
            let st2 := { st with lastIndex := text.length - rest2.length }
            if dtdNodeOk tagFull then
              rec rest2 name isRoot branch
                { st2 with dtdNodeList := st2.dtdNodeList ++ [tagFull] }
            else
              let r := pushError text (("Malformed DTD tag").toList) tagFull st2
              .err r.1 r.2
          | .unclosed tagAcc =>
            let r := pushError text (("Unclosed DTD tag").toList) tagAcc st
            .err r.1 r.2
          | .fuelOut => .fuelOut
        else
          let r := pushError text (("Malformed DTD tag").toList) body st
          .err r.1 r.2
      else if isCDATATag body then
        match scanUntil endCDATA body restAfter with
        | .ok tagFull rest2 =>
          let st2 := { st with lastIndex := text.length - rest2.length }
          match cdataExtract tagFull with
          | some payload =>
            rec rest2 name isRoot (dataAppend cfg branch payload) st2
          | none =>
            let r := pushError text (("Malformed CDATA tag").toList) tagFull st2
            .err r.1 r.2
        | .unclosed tagAcc =>
          let r := pushError text (("Unclosed CDATA tag").toList) tagAcc st
          .err r.1 r.2
        | .fuelOut => .fuelOut
      else
        let r := pushError text (("Malformed special tag").toList) body st
        .err r.1 r.2
    else
      match parseStandardTag body with
      | none =>
        let r := pushError text (("Malformed tag").toList) body st
        .err r.1 r.2
      | some (closing, rawName, attribsRaw) =>
        let nodeName := if cfg.lowerCase then toLowerStr rawName else rawName
        if closing then
          if nodeName == name.getD [] then .ok (branch, restAfter, st)
          else
            let nm := match name with | some n => n | none => ("null").toList
            let r := pushError text
              ((("Mismatched closing tag (expected </").toList ++ nm ++ (">)").toList)) body st
            .err r.1 r.2
        else
          let sc := selfClosingCheck attribsRaw
          let pairs := (attribScan attribsRaw).map
            (fun p => (if cfg.lowerCase then toLowerStr p.1 else p.1, decodeEntities p.2))
          let leaf : JObj :=
            if cfg.preserveAttributes then
              if pairs.isEmpty then [] else [(cfg.attribsKey, JVal.obj (buildAttribs pairs))]
            else buildAttribs pairs
          match (if sc then .ok (leaf, restAfter, st)
                 else rec restAfter (some nodeName) false leaf st :
                 PRes (JObj × Str × PState)) with
          | .err m st' => .err m st'
          | .fuelOut => .fuelOut
          | .ok (leaf2, rest2, st2) =>
            let leafV := collapseLeaf cfg leaf2
            let branch2 := attachLeaf cfg isRoot branch nodeName leafV
            if isRoot then .ok (branch2, rest2, st2)
            else rec rest2 name isRoot branch2 st2

def parseNode (cfg : Cfg) (text : Str) :
    Nat → Str → Option Str → Bool → JObj → PState → PRes (JObj × Str × PState)
  | 0, _, _, _, _, _ => .fuelOut
  | fuel + 1, s, name, isRoot, branch, st =>
    parseNodeStep cfg text (parseNode cfg text fuel) s name isRoot branch st

/-! ## Document wrapper -/

/-- Caller-facing options with the source's defaults (lines 577-604). -/
structure XMLOpts where
  preserveDocumentNode : Bool := false
  preserveAttributes : Bool := false
  preserveWhitespace : Bool := false
  lowerCase : Bool := false
  forceArrays : Bool := false
  attribsKey : Str := ("_Attribs").toList
  dataKey : Str := ("_Data").toList

/-- Constructor normalisation (lines 51-54): lower-case the reserved
keys when requested. -/
def mkCfg (opts : XMLOpts) (emptyLeaf : Bool) : Cfg :=
  { preserveDocumentNode := opts.preserveDocumentNode
    preserveAttributes := opts.preserveAttributes
    preserveWhitespace := opts.preserveWhitespace
    lowerCase := opts.lowerCase
    forceArrays := opts.forceArrays
    attribsKey := if opts.lowerCase then toLowerStr opts.attribsKey else opts.attribsKey
    dataKey := if opts.lowerCase then toLowerStr opts.dataKey else opts.dataKey
    emptyChildlessLeaf := emptyLeaf }

/-- The observable fields of an `XML` instance after construction. -/
structure XMLInst where
  tree : JVal
  errors : List PError
  piNodeList : List Str
  dtdNodeList : List Str
  documentNodeName : Option Str

/-- Result of `new XML(...)`: a constructed instance, or a propagated
exception (`throwParseError` throws and nothing catches). -/
inductive RunResult where
  | ok : XMLInst → RunResult
  | thrown : Str → PState → RunResult
  | fuelOut : RunResult

def initPState : PState := ⟨0, [], [], []⟩

/-- `new XML({...opts, text})` (constructor lines 33-60 plus the
root-call postlude of `parse`, lines 202-216).  The empty text skips
parsing entirely (`if (this.text)`); `documentNodeName` is `some []`
for the constructor's initial `''` and `none` for a null `firstKey`. -/
def runXML (emptyLeaf : Bool) (opts : XMLOpts) (text : Str) : RunResult :=
  let cfg := mkCfg opts emptyLeaf
  if text.isEmpty then .ok ⟨.obj [], [], [], [], some []⟩
  else
    match parseNode cfg text (text.length + 1) text none true [] initPState with
    | .fuelOut => .fuelOut
    | .err msg st => .thrown msg st
    | .ok (tree0, _, st) =>
      let tree1 := delV tree0 cfg.dataKey
      if numKeys tree1 > 1 then
        let tagK := (firstKey tree1).getD (("null").toList)
        let r := pushError text (("Only one top-level node is allowed in document").toList) tagK st
        .thrown r.1 r.2
      else
        let docName := firstKey tree1
        let finalTree : JVal :=
          match docName with
          | some d =>
            if d.isEmpty || cfg.preserveDocumentNode then .obj tree1
            else (getV tree1 d).getD (.str [])
          | none => .obj tree1
        .ok ⟨finalTree, st.errors, st.piNodeList, st.dtdNodeList, docName⟩

/-- Result of the convenience entry point `parse(text, opts)`: a
returned value, a propagated exception, or fuel exhaustion. -/
inductive ConvRes where
  | val : JVal → ConvRes
  | exn : Str → ConvRes
  | fuelOut : ConvRes

/-- `function parse(text, opts)` (src/xml.js lines 397-402, part_000
lines 432-438): construct, then return `getLastError()` if errors were
recorded, else the tree.  An exception from the constructor propagates. -/
def parseConvG (emptyLeaf : Bool) (text : Str) (opts : XMLOpts) : ConvRes :=
  match runXML emptyLeaf opts text with
  | .ok inst => .val (if inst.errors.length ≠ 0 then .str (getLastError inst.errors) else inst.tree)
  | .thrown m _ => .exn m
  | .fuelOut => .fuelOut

/-- `XML.parse` semantics of src/xml.js. -/
def runXmljs (opts : XMLOpts) (text : Str) : RunResult := runXML false opts text

/-- `XML.parse` semantics of src/unnamed/part_000. -/
def runPart000 (opts : XMLOpts) (text : Str) : RunResult := runXML true opts text

def defaultOpts : XMLOpts := {}

/-! ## Serialiser (`stringify`, src/xml.js lines 460-539)

Modelled with fuel (`jsize` of the node suffices); `none` stands for a
JS `undefined` property read.  JS `for..in` key enumeration and property
access are generalised over the value universe because the root case
`name = firstKey(node); node = node[name]` can hit non-objects. -/

def xmlHeaderStr : Str := ("<?xml version=\"1.0\"?>").toList

def digitsToNat (s : Str) : Nat := s.foldl (fun a c => a * 10 + (c.toNat - 48)) 0

/-- Canonical numeric string, as used by JS array/string indexing. -/
def canonNat? (k : Str) : Option Nat :=
  if !k.isEmpty && k.all (·.isDigit) then
    let n := digitsToNat k
    if (toString n).toList == k then some n else none
  else none

/-- `hashKeysToArray` / `for..in` enumerable own keys. -/
def jsKeysV : JVal → List Str
  | .obj m => m.map (·.1)
  | .arr xs => (List.range xs.length).map (fun i => (toString i).toList)
  | .str s => (List.range s.length).map (fun i => (toString i).toList)

/-- JS property read `v[k]`. -/
def jsGetV : JVal → Str → Option JVal
  | .obj m, k => getV m k
  | .arr xs, k => (canonNat? k).bind (fun n => xs.get? n)
  | .str s, k => (canonNat? k).bind (fun n => (s.get? n).map (fun c => .str [c]))

/-- JS truthiness of a property read (`undefined`/`''` falsy, any object
or non-empty string truthy). -/
def truthyO : Option JVal → Bool
  | none => false
  | some (.str s) => !s.isEmpty
  | some (.arr _) => true
  | some (.obj _) => true

/-- `encodeEntities` applied to a property read, with the JS coercion on
the result when it was not a string (non-strings pass through
`encodeEntities` unchanged and are coerced by the `+` concatenation). -/
def encodeJ : Option JVal → Str
  | none => []
  | some (.str s) => encodeEntities s
  | some v => jsToStr v

/-- `encodeAttribEntities` applied to a property read, as `encodeJ`. -/
def encodeAttribJ : Option JVal → Str
  | none => []
  | some (.str s) => encodeAttribEntities s
  | some v => jsToStr v

/-- JS default `Array.prototype.sort` comparison: code-unit
lexicographic order on strings. -/
def strLe : Str → Str → Bool
  | [], _ => true
  | _ :: _, [] => false
  | c :: a, d :: b =>
    if c.val < d.val then true else if d.val < c.val then false else strLe a b

/-- `.sort()` on a key array (keys are unique, so any sorting algorithm
yields the JS result). -/
def sortKeys (ks : List Str) : List Str :=
  List.insertionSort (fun a b => strLe a b = true) ks

/-- JS falsiness of the `name` argument (undefined, null or `''`). -/
def nameFalsy : Option Str → Bool
  | none => true
  | some s => s.isEmpty

/-- String coercion of the `name` argument in `"<" + name`. -/
def nameStr : Option Str → Str
  | some s => s
  | none => ("null").toList

def jsFirstKeyO (nodeO : Option JVal) : Option Str :=
  nodeO.bind (fun v => (jsKeysV v).head?)

def stringifyF (fuel : Nat) (nodeIn : Option JVal) (nameIn : Option Str) (indent : Nat)
    (indentStr eol : Str) (sort : Bool) : Str :=
  match fuel with
  | 0 => []
  | fuel + 1 =>
    let rootAdjust : Str × Option JVal × Option Str :=
      if indent = 0 then
        if nameFalsy nameIn then
          let k := jsFirstKeyO nodeIn
          (xmlHeaderStr ++ eol,
           nodeIn.bind (fun v => jsGetV v (nameStr k)),
           k)
        else (xmlHeaderStr ++ eol, nodeIn, nameIn)
      else ([], nodeIn, nameIn)
    let xml0 := rootAdjust.1
    let nodeO := rootAdjust.2.1
    let name := rootAdjust.2.2
    let indentText := (List.replicate indent indentStr).flatten
    match nodeO with
    | some (.obj m) =>
      let av := getV m (("_Attribs").toList)
      let hasAttribs := if av.isSome then 1 else 0
      let attribsXml :=
        match av with
        | some avv =>
          let sk := if sort then sortKeys (jsKeysV avv) else jsKeysV avv
          sk.foldl (fun acc k =>
            acc ++ ' ' :: (k ++ '=' :: '"' :: (encodeAttribJ (jsGetV avv k) ++ ['"']))) []
        | none => []
      let openPart := xml0 ++ indentText ++ '<' :: (nameStr name ++ attribsXml)
      if numKeys m > hasAttribs then
        if truthyO (getV m (("_Data").toList)) then
          openPart ++ '>' :: (encodeJ (getV m (("_Data").toList)) ++ ("</").toList ++
            nameStr name ++ '>' :: eol)
        else
          let sk := if sort then sortKeys (m.map (·.1)) else m.map (·.1)
          let childrenXml := sk.foldl (fun acc k =>
            if !(k == ("_Attribs").toList) && validTagName k then
              acc ++ stringifyF fuel (jsGetV (.obj m) k) (some k) (indent + 1) indentStr eol sort
            else acc) []
          openPart ++ '>' :: eol ++ childrenXml ++ indentText ++ ("</").toList ++
            nameStr name ++ '>' :: eol
      else openPart ++ ("/>").toList ++ eol
    | some (.arr xs) =>
      xml0 ++ xs.foldl (fun acc x =>
        acc ++ stringifyF fuel (some x) name indent indentStr eol sort) []
    | _ =>
      xml0 ++ indentText ++ '<' :: (nameStr name ++ '>' ::
        (encodeJ nodeO ++ ("</").toList ++ nameStr name ++ '>' :: eol))

/-- `stringify(node, name, indent, indent_string, eol, sort)` with all
arguments explicit (JS defaults: `"\t"`, `"\n"`, `true`). -/
def stringify (node : JVal) (name : Option Str) (indent : Nat)
    (indentStr eol : Str) (sort : Bool) : Str :=
  stringifyF (jsize node) (some node) name indent indentStr eol sort

/-- `stringify(tree)` with only the node given, as the round-trip
serialisation entry point uses it. -/
def stringifyTop (tree : JVal) : Str :=
  stringify tree none 0 ['\t'] ['\n'] true

/-! ## Codec analysis scaffolding

Each global replacement pass of the codec maps a string that is a
character-wise image (`cmap`) of the original through a finite
character table to another such image; the tables below drive the
codec proofs. -/

def cmap (f : Char → Str) (s : Str) : Str := (s.map f).flatten

/-- Character substitution given by a finite table, identity elsewhere. -/
def tblMap (tbl : List (Char × Str)) (c : Char) : Str :=
  match tbl.find? (·.1 == c) with
  | some e => e.2
  | none => [c]

/-- Effect of one replacement pass on a table: images equal to the
pattern become the replacement. -/
def tblStage (pat repl : Str) (tbl : List (Char × Str)) : List (Char × Str) :=
  tbl.map (fun e => (e.1, if e.2 = pat then repl else e.2))

/-- Identity table over the five XML special characters. -/
def tbl0 : List (Char × Str) :=
  [('&', ['&']), ('<', ['<']), ('>', ['>']), ('"', ['"']), ('\'', ['\''])]

def tbl1 : List (Char × Str) := tblStage ['&'] (("&amp;").toList) tbl0
def tbl2 : List (Char × Str) := tblStage ['<'] (("&lt;").toList) tbl1
/-- Table of `encodeEntities`: `&`, `<`, `>` escaped. -/
def tbl3 : List (Char × Str) := tblStage ['>'] (("&gt;").toList) tbl2
def tbl4 : List (Char × Str) := tblStage ['"'] (("&quot;").toList) tbl3
/-- Table of `encodeAttribEntities`: all five escaped. -/
def tbl5 : List (Char × Str) := tblStage ['\''] (("&apos;").toList) tbl4

/-- Size of an optional node (`none` = JS `undefined`). -/
def jsizeO : Option JVal → Nat
  | none => 1
  | some v => jsize v

/-- Invariant carried by every parser fragment: a normal return leaves
the error list unchanged and only advances the cursor; a raised error
carries the formatted last error of a non-empty error list; fuel can
run out only if it was at most the remaining source length. -/
def PSpec (fuel : Nat) (s : Str) (st : PState) : PRes (JObj × Str × PState) → Prop
  | .ok r => r.2.2.errors = st.errors ∧ r.2.1.length ≤ s.length
  | .err m st' => m = getLastError st'.errors ∧ st'.errors ≠ []
  | .fuelOut => fuel ≤ s.length

/-! ## Relating the two implementation copies (C9 support)

src/xml.js and src/unnamed/part_000 differ, in `XML.parse`, only in the
value given to a childless, attribute-less, data-less leaf (`{}` vs
`''`).  `LeafRel` relates the two parses' values: equal everywhere
except that an empty object on the xml.js side may correspond to an
empty string on the part_000 side. -/

mutual

inductive LeafRel : JVal → JVal → Prop where
  | str : ∀ s, LeafRel (.str s) (.str s)
  | emptyLeaf : LeafRel (.obj []) (.str [])
  | arr : ∀ xs ys, LeafRelL xs ys → LeafRel (.arr xs) (.arr ys)
  | obj : ∀ m1 m2, LeafRelM m1 m2 → LeafRel (.obj m1) (.obj m2)

inductive LeafRelL : List JVal → List JVal → Prop where
  | nil : LeafRelL [] []
  | cons : ∀ x y xs ys, LeafRel x y → LeafRelL xs ys → LeafRelL (x :: xs) (y :: ys)

inductive LeafRelM : JObj → JObj → Prop where
  | nil : LeafRelM [] []
  | cons : ∀ (k : Str) (v w : JVal) (xs ys : JObj),
      LeafRel v w → LeafRelM xs ys → LeafRelM ((k, v) :: xs) ((k, w) :: ys)

end

/-- Relation between in-progress branches of the two parses: entries
correspond pointwise with equal keys, and the data-key entries (which
feed the string coercion of the JS `+=`) are equal outright. -/
def BranchRel (dk : Str) (b1 b2 : JObj) : Prop :=
  LeafRelM b1 b2 ∧ getV b1 dk = getV b2 dk

/-- A configuration with the childless-leaf flag overridden. -/
def withFlag (cfg : Cfg) (b : Bool) : Cfg := { cfg with emptyChildlessLeaf := b }

/-- How the two copies' step results correspond: identical except for
related branch trees; on success both leave the same cursor and state. -/
def SimOk (dk : Str) (text : Str) :
    PRes (JObj × Str × PState) → PRes (JObj × Str × PState) → Prop
  | .ok (t1, s1, st1), .ok (t2, s2, st2) =>
    BranchRel dk t1 t2 ∧ s1 = s2 ∧ st1 = st2 ∧ s1 <:+ text
  | .err m1 st1, .err m2 st2 => m1 = m2 ∧ st1 = st2
  | .fuelOut, .fuelOut => True
  | _, _ => False

/-! ## Round-trip normal form (C1 support)

The serialise-then-parse development works over flat document trees
`{ root: { k1: v1, ..., kn: vn } }` in the normal form that survives the
parser's own normalisation: string leaf values that are non-empty and
trimmed, and distinct, sorted, valid tag names that avoid the two
reserved keys. -/

/-- Options used for the round trip: keep the document node so the parse
result carries the root name, everything else at its default. -/
def rtOpts : XMLOpts := { preserveDocumentNode := true }

/-- The parse configuration of src/xml.js under `rtOpts`. -/
def crt : Cfg := mkCfg rtOpts false

/-- Flat document tree `{ r: { k1: v1, ... } }` with string leaves. -/
def rtTree (r : Str) (ms : List (Str × Str)) : JVal :=
  .obj [(r, .obj (ms.map (fun p => (p.1, JVal.str p.2))))]

/-- Normal form: valid sorted distinct child names away from the
reserved keys, trimmed non-empty string values, and a valid root name
distinct from the data key. -/
def rtNormal (r : Str) (ms : List (Str × Str)) : Prop :=
  validTagName r = true ∧ r ≠ ("_Data").toList ∧
  (ms.map (fun p => p.1)).Nodup ∧
  sortKeys (ms.map (fun p => p.1)) = ms.map (fun p => p.1) ∧
  ∀ p ∈ ms, validTagName p.1 = true ∧ p.1 ≠ ("_Attribs").toList ∧
    p.1 ≠ ("_Data").toList ∧ trim p.2 = p.2 ∧ p.2 ≠ []

/-- The text `stringify` emits for one flat child element. -/
def rtChildText (ms : List (Str × Str)) : Str :=
  (ms.map (fun p => '\t' :: '<' :: (p.1 ++ '>' :: (encodeEntities p.2 ++
    ("</").toList ++ p.1 ++ '>' :: ['\n'])))).flatten

/-- Body of the XML declaration the serialiser prepends. -/
def xmlPiBody : Str := ("?xml version=\"1.0\"?").toList

/-! ## Sub-scanner termination (C8 support) -/

theorem nextClose_some_length {s seg rest : Str} (h : nextClose s = some (seg, rest)) :
    rest.length < s.length := by
  unfold nextClose at h
  split at h
  · rename_i r heq
    cases h
    have hsub : ('>' :: rest).length ≤ s.length := by
      rw [← heq]; exact (List.dropWhile_sublist _).length_le
    simp at hsub
    omega
  · cases h

theorem scanUntilF_spec (done : Str → Bool) :
    ∀ fuel tag s, s.length < fuel →
    (match scanUntilF done fuel tag s with
     | .ok t r => done t = true ∧ r.length ≤ s.length
     | .unclosed t => done t = false
     | .fuelOut => False) := by
  intro fuel
  induction fuel with
  | zero => intro tag s h; omega
  | succ fuel ih =>
    intro tag s h
    by_cases hd : done tag
    · simp [scanUntilF, hd]
    · cases hnc : nextClose s with
      | none => simp [scanUntilF, hd, hnc]
      | some p =>
        obtain ⟨seg, rest⟩ := p
        have hlt := nextClose_some_length hnc
        have hrec := ih (tag ++ '>' :: seg) rest (by omega)
        simp only [scanUntilF, hd, hnc, Bool.false_eq_true, if_false]
        cases hres : scanUntilF done fuel (tag ++ '>' :: seg) rest with
        | ok t r =>
          rw [hres] at hrec
          exact ⟨hrec.1, by omega⟩
        | unclosed t => rw [hres] at hrec; exact hrec
        | fuelOut => rw [hres] at hrec; exact hrec

theorem scanUntil_spec (done : Str → Bool) (tag s : Str) :
    (match scanUntil done tag s with
     | .ok t r => done t = true ∧ r.length ≤ s.length
     | .unclosed t => done t = false
     | .fuelOut => False) :=
  scanUntilF_spec done (s.length + 1) tag s (by omega)

/-! ## Entity codec proofs (C2 support) -/

theorem replaceF_irrel (pat repl : Str) (hp : pat ≠ []) :
    ∀ f g s, s.length ≤ f → s.length ≤ g →
      replaceF pat repl f s = replaceF pat repl g s := by
  intro f
  induction f with
  | zero =>
    intro g s hf _
    have : s = [] := List.eq_nil_of_length_eq_zero (Nat.le_zero.mp hf)
    subst this
    cases g <;> rfl
  | succ f ih =>
    intro g s hf hg
    cases s with
    | nil => cases g <;> rfl
    | cons c rest =>
      cases g with
      | zero => simp at hg
      | succ g =>
        have hplen : 1 ≤ pat.length := by
          cases pat with
          | nil => exact absurd rfl hp
          | cons a b => simp
        show (if pat.isPrefixOf (c :: rest) then
                repl ++ replaceF pat repl f ((c :: rest).drop pat.length)
              else c :: replaceF pat repl f rest) =
             (if pat.isPrefixOf (c :: rest) then
                repl ++ replaceF pat repl g ((c :: rest).drop pat.length)
              else c :: replaceF pat repl g rest)
        by_cases hpre : pat.isPrefixOf (c :: rest)
        · rw [if_pos hpre, if_pos hpre,
            ih g ((c :: rest).drop pat.length) (by simp at hf ⊢; omega) (by simp at hg ⊢; omega)]
        · rw [if_neg hpre, if_neg hpre,
            ih g rest (by simp at hf ⊢; omega) (by simp at hg ⊢; omega)]

theorem replaceJS_cons (pat repl : Str) (hp : pat ≠ []) (c : Char) (rest : Str) :
    replaceJS pat repl (c :: rest) =
      if pat.isPrefixOf (c :: rest) then
        repl ++ replaceJS pat repl ((c :: rest).drop pat.length)
      else c :: replaceJS pat repl rest := by
  have hplen : 1 ≤ pat.length := by
    cases pat with
    | nil => exact absurd rfl hp
    | cons a b => simp
  have h1 : replaceF pat repl rest.length ((c :: rest).drop pat.length) =
      replaceJS pat repl ((c :: rest).drop pat.length) :=
    replaceF_irrel pat repl hp rest.length ((c :: rest).drop pat.length).length _
      (by simp; omega) (le_refl _)
  show (if pat.isPrefixOf (c :: rest) then
          repl ++ replaceF pat repl rest.length ((c :: rest).drop pat.length)
        else c :: replaceF pat repl rest.length rest) = _
  rw [h1]
  rfl

theorem replaceJS_nil (pat repl : Str) : replaceJS pat repl [] = [] := rfl

/-- Skip lemma: a pattern starting with `p0` cannot match at any
position inside a `p0`-free prefix. -/
theorem replaceJS_skip (p0 : Char) (pat' repl : Str) :
    ∀ l t : Str, (∀ x ∈ l, x ≠ p0) →
      replaceJS (p0 :: pat') repl (l ++ t) = l ++ replaceJS (p0 :: pat') repl t := by
  intro l
  induction l with
  | nil => intro t _; rfl
  | cons x l ih =>
    intro t hl
    have hx : x ≠ p0 := hl x (by simp)
    have hnp : ¬ (p0 :: pat').isPrefixOf (x :: (l ++ t)) := by
      intro hcon
      rw [List.isPrefixOf_iff_prefix, List.cons_prefix_cons] at hcon
      exact hx hcon.1.symm
    rw [List.cons_append, replaceJS_cons _ _ (by simp) x (l ++ t), if_neg hnp,
      ih t (fun y hy => hl y (by simp [hy]))]
    simp

/-- Match-at-head lemma. -/
theorem replaceJS_head (pat repl : Str) (hp : pat ≠ []) (t : Str) :
    replaceJS pat repl (pat ++ t) = repl ++ replaceJS pat repl t := by
  obtain ⟨p0, pat', hpat⟩ : ∃ p0 pat', pat = p0 :: pat' := by
    cases pat with
    | nil => exact absurd rfl hp
    | cons a b => exact ⟨a, b, rfl⟩
  subst hpat
  have hpre : (p0 :: pat').isPrefixOf (p0 :: pat' ++ t) := by
    rw [List.isPrefixOf_iff_prefix]
    exact ⟨t, by simp⟩
  rw [List.cons_append, replaceJS_cons _ _ (by simp) p0 (pat' ++ t)]
  split
  · congr 1
    have hd := List.drop_left (p0 :: pat') t
    simp at hd
    simp [hd]
  · rename_i hno
    exact absurd hpre hno

theorem cmap_cons (f : Char → Str) (c : Char) (s : Str) :
    cmap f (c :: s) = f c ++ cmap f s := by simp [cmap]

/-- One global replacement pass on a character-wise image: images equal
to the pattern are replaced, every other image passes through, because
the pattern's head character can only occur at image starts. -/
theorem replace_tbl (tbl : List (Char × Str)) (p0 : Char) (pat' repl : Str)
    (hkey : ∃ e ∈ tbl, e.1 = p0)
    (himg : ∀ e ∈ tbl, e.2 ≠ [])
    (htail : ∀ e ∈ tbl, p0 ∉ e.2.drop 1)
    (hpre : ∀ e ∈ tbl, ((e.2 <+: (p0 :: pat')) ∨ ((p0 :: pat') <+: e.2)) → e.2 = p0 :: pat') :
    ∀ s, replaceJS (p0 :: pat') repl (cmap (tblMap tbl) s) =
      cmap (tblMap (tblStage (p0 :: pat') repl tbl)) s := by
  intro s
  induction s with
  | nil => rfl
  | cons c s ih =>
    rw [cmap_cons, cmap_cons]
    have hmapfind : (tblStage (p0 :: pat') repl tbl).find? (·.1 == c) =
        (tbl.find? (·.1 == c)).map (fun e => (e.1, if e.2 = p0 :: pat' then repl else e.2)) := by
      unfold tblStage
      exact List.find?_map _ tbl
    cases hf : tbl.find? (·.1 == c) with
    | none =>
      have hcne : c ≠ p0 := by
        intro hcp
        obtain ⟨e, hmem, hek⟩ := hkey
        have := List.find?_eq_none.mp hf e hmem
        simp [hek, hcp] at this
      have htm : tblMap tbl c = [c] := by simp [tblMap, hf]
      have htm2 : tblMap (tblStage (p0 :: pat') repl tbl) c = [c] := by
        simp [tblMap, hmapfind, hf]
      rw [htm, htm2]
      have hnp : ¬ (p0 :: pat').isPrefixOf (c :: cmap (tblMap tbl) s) := by
        intro hcon
        rw [List.isPrefixOf_iff_prefix, List.cons_prefix_cons] at hcon
        exact hcne hcon.1.symm
      rw [List.singleton_append, replaceJS_cons _ _ (by simp) c _, if_neg hnp, ih,
        List.singleton_append]
    | some e =>
      have hmem : e ∈ tbl := List.mem_of_find?_eq_some hf
      have htm : tblMap tbl c = e.2 := by simp [tblMap, hf]
      have htm2 : tblMap (tblStage (p0 :: pat') repl tbl) c =
          (if e.2 = p0 :: pat' then repl else e.2) := by
        simp [tblMap, hmapfind, hf]
      rw [htm, htm2]
      by_cases hm : e.2 = p0 :: pat'
      · rw [hm, if_pos rfl, replaceJS_head _ _ (by simp), ih]
      · rw [if_neg hm]
        obtain ⟨d, ds, hds⟩ : ∃ d ds, e.2 = d :: ds := by
          cases he2 : e.2 with
          | nil => exact absurd he2 (himg e hmem)
          | cons d ds => exact ⟨d, ds, rfl⟩
        have hnp : ¬ (p0 :: pat').isPrefixOf (e.2 ++ cmap (tblMap tbl) s) := by
          intro hcon
          rw [List.isPrefixOf_iff_prefix] at hcon
          have h2 : e.2 <+: (e.2 ++ cmap (tblMap tbl) s) := List.prefix_append _ _
          have hdisj := List.prefix_or_prefix_of_prefix hcon h2
          exact hm (hpre e hmem (Or.symm hdisj))
        have hdstail : ∀ x ∈ ds, x ≠ p0 := by
          intro x hx hxp
          have := htail e hmem
          rw [hds] at this
          simp at this
          exact this (hxp ▸ hx)
        rw [hds, List.cons_append, replaceJS_cons _ _ (by simp) d _]
        rw [hds, List.cons_append] at hnp
        rw [if_neg hnp, replaceJS_skip p0 pat' repl ds _ hdstail, ih]
        simp

/-- A table whose images are all identity singletons maps any string to
itself. -/
theorem cmap_id_of_singleton (tbl : List (Char × Str))
    (h : ∀ e ∈ tbl, e.2 = [e.1]) : ∀ s, cmap (tblMap tbl) s = s := by
  intro s
  induction s with
  | nil => rfl
  | cons c s ih =>
    rw [cmap_cons, ih]
    cases hf : tbl.find? (·.1 == c) with
    | none => simp [tblMap, hf]
    | some e =>
      have hmem := List.mem_of_find?_eq_some hf
      have heq := List.find?_some hf
      simp at heq
      have : e.2 = [c] := by rw [h e hmem, heq]
      simp [tblMap, hf, this]

theorem encode_cmap (s : Str) : encodeEntities s = cmap (tblMap tbl3) s := by
  have e0 := (cmap_id_of_singleton tbl0 (by decide) s).symm
  have e1 : replaceJS ['&'] (("&amp;").toList) s = cmap (tblMap tbl1) s := by
    conv_lhs => rw [e0]
    exact replace_tbl tbl0 '&' [] _ (by decide) (by decide) (by decide) (by decide) s
  have e2 : replaceJS ['<'] (("&lt;").toList) (replaceJS ['&'] (("&amp;").toList) s) =
      cmap (tblMap tbl2) s := by
    rw [e1]
    exact replace_tbl tbl1 '<' [] _ (by decide) (by decide) (by decide) (by decide) s
  show replaceJS ['>'] (("&gt;").toList) (replaceJS ['<'] (("&lt;").toList)
    (replaceJS ['&'] (("&amp;").toList) s)) = _
  rw [e2]
  exact replace_tbl tbl2 '>' [] _ (by decide) (by decide) (by decide) (by decide) s

theorem encodeAttrib_cmap (s : Str) : encodeAttribEntities s = cmap (tblMap tbl5) s := by
  have e3 : replaceJS ['>'] (("&gt;").toList) (replaceJS ['<'] (("&lt;").toList)
      (replaceJS ['&'] (("&amp;").toList) s)) = cmap (tblMap tbl3) s := encode_cmap s
  have e4 : replaceJS ['"'] (("&quot;").toList) (replaceJS ['>'] (("&gt;").toList)
      (replaceJS ['<'] (("&lt;").toList) (replaceJS ['&'] (("&amp;").toList) s))) =
      cmap (tblMap tbl4) s := by
    rw [e3]
    exact replace_tbl tbl3 '"' [] _ (by decide) (by decide) (by decide) (by decide) s
  show replaceJS ['\''] (("&apos;").toList) _ = _
  rw [e4]
  exact replace_tbl tbl4 '\'' [] _ (by decide) (by decide) (by decide) (by decide) s

/-- A table each of whose non-identity images contains `&` maps
`&`-free outputs only from untouched inputs. -/
theorem cmap_no_amp_id (tbl : List (Char × Str))
    (h : ∀ e ∈ tbl, e.2 = [e.1] ∨ '&' ∈ e.2) :
    ∀ s, '&' ∉ cmap (tblMap tbl) s → cmap (tblMap tbl) s = s := by
  intro s
  induction s with
  | nil => intro _; rfl
  | cons c s ih =>
    intro hno
    rw [cmap_cons] at hno ⊢
    have himg : '&' ∉ tblMap tbl c := fun hma => hno (List.mem_append_left _ hma)
    have hrest : '&' ∉ cmap (tblMap tbl) s := fun hma => hno (List.mem_append_right _ hma)
    rw [ih hrest]
    cases hf : tbl.find? (·.1 == c) with
    | none => simp [tblMap, hf]
    | some e =>
      have hmem := List.mem_of_find?_eq_some hf
      have heq := List.find?_some hf
      simp at heq
      rcases h e hmem with hid | hamp
      · simp [tblMap, hf, hid, heq]
      · rw [tblMap, hf] at himg
        exact absurd hamp himg

/-- Decoding inverts the three-entity encoding table. -/
theorem decode_encode_tbl3 (s : Str) :
    decodeEntities (cmap (tblMap tbl3) s) = s := by
  unfold decodeEntities
  by_cases hamp : (cmap (tblMap tbl3) s).contains '&'
  · rw [if_pos hamp]
    have d1 : replaceJS (("&lt;").toList) ['<'] (cmap (tblMap tbl3) s) =
        cmap (tblMap (tblStage (("&lt;").toList) ['<'] tbl3)) s :=
      replace_tbl tbl3 '&' (("lt;").toList) ['<']
        (by decide) (by decide) (by decide) (by decide) s
    rw [d1]
    have d2 : replaceJS (("&gt;").toList) ['>'] (cmap (tblMap (tblStage (("&lt;").toList) ['<'] tbl3)) s) =
        cmap (tblMap (tblStage (("&gt;").toList) ['>'] (tblStage (("&lt;").toList) ['<'] tbl3))) s :=
      replace_tbl (tblStage (("&lt;").toList) ['<'] tbl3) '&' (("gt;").toList) ['>']
        (by decide) (by decide) (by decide) (by decide) s
    rw [d2]
    have d3 : replaceJS (("&quot;").toList) ['"'] (cmap (tblMap (tblStage (("&gt;").toList) ['>'] (tblStage (("&lt;").toList) ['<'] tbl3))) s) =
        cmap (tblMap (tblStage (("&quot;").toList) ['"'] (tblStage (("&gt;").toList) ['>'] (tblStage (("&lt;").toList) ['<'] tbl3)))) s :=
      replace_tbl (tblStage (("&gt;").toList) ['>'] (tblStage (("&lt;").toList) ['<'] tbl3)) '&' (("quot;").toList) ['"']
        (by decide) (by decide) (by decide) (by decide) s
    rw [d3]
    have d4 : replaceJS (("&apos;").toList) ['\''] (cmap (tblMap (tblStage (("&quot;").toList) ['"'] (tblStage (("&gt;").toList) ['>'] (tblStage (("&lt;").toList) ['<'] tbl3)))) s) =
        cmap (tblMap (tblStage (("&apos;").toList) ['\''] (tblStage (("&quot;").toList) ['"'] (tblStage (("&gt;").toList) ['>'] (tblStage (("&lt;").toList) ['<'] tbl3))))) s :=
      replace_tbl (tblStage (("&quot;").toList) ['"'] (tblStage (("&gt;").toList) ['>'] (tblStage (("&lt;").toList) ['<'] tbl3))) '&' (("apos;").toList) ['\'']
        (by decide) (by decide) (by decide) (by decide) s
    rw [d4]
    have d5 : replaceJS (("&amp;").toList) ['&'] (cmap (tblMap (tblStage (("&apos;").toList) ['\''] (tblStage (("&quot;").toList) ['"'] (tblStage (("&gt;").toList) ['>'] (tblStage (("&lt;").toList) ['<'] tbl3))))) s) =
        cmap (tblMap (tblStage (("&amp;").toList) ['&'] (tblStage (("&apos;").toList) ['\''] (tblStage (("&quot;").toList) ['"'] (tblStage (("&gt;").toList) ['>'] (tblStage (("&lt;").toList) ['<'] tbl3)))))) s :=
      replace_tbl (tblStage (("&apos;").toList) ['\''] (tblStage (("&quot;").toList) ['"'] (tblStage (("&gt;").toList) ['>'] (tblStage (("&lt;").toList) ['<'] tbl3)))) '&' (("amp;").toList) ['&']
        (by decide) (by decide) (by decide) (by decide) s
    rw [d5]
    exact cmap_id_of_singleton (tblStage (("&amp;").toList) ['&'] (tblStage (("&apos;").toList) ['\''] (tblStage (("&quot;").toList) ['"'] (tblStage (("&gt;").toList) ['>'] (tblStage (("&lt;").toList) ['<'] tbl3))))) (by decide) s
  · rw [if_neg hamp]
    apply cmap_no_amp_id tbl3 (by decide) s
    intro hmem
    exact hamp (List.elem_iff.mpr hmem)

/-- Decoding inverts the five-entity attribute encoding table. -/
theorem decode_encode_tbl5 (s : Str) :
    decodeEntities (cmap (tblMap tbl5) s) = s := by
  unfold decodeEntities
  by_cases hamp : (cmap (tblMap tbl5) s).contains '&'
  · rw [if_pos hamp]
    have d1 : replaceJS (("&lt;").toList) ['<'] (cmap (tblMap tbl5) s) =
        cmap (tblMap (tblStage (("&lt;").toList) ['<'] tbl5)) s :=
      replace_tbl tbl5 '&' (("lt;").toList) ['<']
        (by decide) (by decide) (by decide) (by decide) s
    rw [d1]
    have d2 : replaceJS (("&gt;").toList) ['>'] (cmap (tblMap (tblStage (("&lt;").toList) ['<'] tbl5)) s) =
        cmap (tblMap (tblStage (("&gt;").toList) ['>'] (tblStage (("&lt;").toList) ['<'] tbl5))) s :=
      replace_tbl (tblStage (("&lt;").toList) ['<'] tbl5) '&' (("gt;").toList) ['>']
        (by decide) (by decide) (by decide) (by decide) s
    rw [d2]
    have d3 : replaceJS (("&quot;").toList) ['"'] (cmap (tblMap (tblStage (("&gt;").toList) ['>'] (tblStage (("&lt;").toList) ['<'] tbl5))) s) =
        cmap (tblMap (tblStage (("&quot;").toList) ['"'] (tblStage (("&gt;").toList) ['>'] (tblStage (("&lt;").toList) ['<'] tbl5)))) s :=
      replace_tbl (tblStage (("&gt;").toList) ['>'] (tblStage (("&lt;").toList) ['<'] tbl5)) '&' (("quot;").toList) ['"']
        (by decide) (by decide) (by decide) (by decide) s
    rw [d3]
    have d4 : replaceJS (("&apos;").toList) ['\''] (cmap (tblMap (tblStage (("&quot;").toList) ['"'] (tblStage (("&gt;").toList) ['>'] (tblStage (("&lt;").toList) ['<'] tbl5)))) s) =
        cmap (tblMap (tblStage (("&apos;").toList) ['\''] (tblStage (("&quot;").toList) ['"'] (tblStage (("&gt;").toList) ['>'] (tblStage (("&lt;").toList) ['<'] tbl5))))) s :=
      replace_tbl (tblStage (("&quot;").toList) ['"'] (tblStage (("&gt;").toList) ['>'] (tblStage (("&lt;").toList) ['<'] tbl5))) '&' (("apos;").toList) ['\'']
        (by decide) (by decide) (by decide) (by decide) s
    rw [d4]
    have d5 : replaceJS (("&amp;").toList) ['&'] (cmap (tblMap (tblStage (("&apos;").toList) ['\''] (tblStage (("&quot;").toList) ['"'] (tblStage (("&gt;").toList) ['>'] (tblStage (("&lt;").toList) ['<'] tbl5))))) s) =
        cmap (tblMap (tblStage (("&amp;").toList) ['&'] (tblStage (("&apos;").toList) ['\''] (tblStage (("&quot;").toList) ['"'] (tblStage (("&gt;").toList) ['>'] (tblStage (("&lt;").toList) ['<'] tbl5)))))) s :=
      replace_tbl (tblStage (("&apos;").toList) ['\''] (tblStage (("&quot;").toList) ['"'] (tblStage (("&gt;").toList) ['>'] (tblStage (("&lt;").toList) ['<'] tbl5)))) '&' (("amp;").toList) ['&']
        (by decide) (by decide) (by decide) (by decide) s
    rw [d5]
    exact cmap_id_of_singleton (tblStage (("&amp;").toList) ['&'] (tblStage (("&apos;").toList) ['\''] (tblStage (("&quot;").toList) ['"'] (tblStage (("&gt;").toList) ['>'] (tblStage (("&lt;").toList) ['<'] tbl5))))) (by decide) s
  · rw [if_neg hamp]
    apply cmap_no_amp_id tbl5 (by decide) s
    intro hmem
    exact hamp (List.elem_iff.mpr hmem)

/-! ## Serialiser fuel irrelevance (C7 / C1 support) -/

theorem jsize_pos : ∀ v : JVal, 1 ≤ jsize v := by
  intro v
  cases v <;> simp [jsize]

theorem jsizeM_mem : ∀ (m : JObj) (e : Str × JVal), e ∈ m → jsize e.2 ≤ jsizeM m := by
  intro m
  induction m with
  | nil => intro e he; cases he
  | cons p ps ih =>
    intro e he
    rw [jsizeM]
    rcases List.mem_cons.mp he with h | h
    · subst h; omega
    · have := ih e h; omega

theorem jsizeL_mem : ∀ (xs : List JVal) (x : JVal), x ∈ xs → jsize x ≤ jsizeL xs := by
  intro xs
  induction xs with
  | nil => intro x hx; cases hx
  | cons y ys ih =>
    intro x hx
    rw [jsizeL]
    rcases List.mem_cons.mp hx with h | h
    · subst h; omega
    · have := ih x h; omega

theorem getV_some_mem {m : JObj} {k : Str} {v : JVal} (h : getV m k = some v) :
    ∃ e ∈ m, e.2 = v := by
  unfold getV at h
  cases hf : m.find? (·.1 == k) with
  | none => rw [hf] at h; cases h
  | some e =>
    rw [hf] at h
    simp at h
    exact ⟨e, List.mem_of_find?_eq_some hf, h⟩

theorem jsize_getV {m : JObj} {k : Str} {v : JVal} (h : getV m k = some v) :
    jsize v < jsize (.obj m) := by
  obtain ⟨e, hmem, hev⟩ := getV_some_mem h
  have := jsizeM_mem m e hmem
  rw [hev] at this
  simp [jsize]
  omega

theorem getV_isSome_of_mem_keys {m : JObj} {k : Str} (h : k ∈ m.map (·.1)) :
    ∃ v, getV m k = some v := by
  obtain ⟨e, hmem, hek⟩ := List.mem_map.mp h
  have hfind : (m.find? (·.1 == k)).isSome := by
    rw [List.find?_isSome]
    exact ⟨e, hmem, by simp [hek]⟩
  cases hf : m.find? (·.1 == k) with
  | none => rw [hf] at hfind; cases hfind
  | some e' => exact ⟨e'.2, by simp [getV, hf]⟩

theorem mem_sortKeys {ks : List Str} {k : Str} : k ∈ sortKeys ks ↔ k ∈ ks :=
  (List.perm_insertionSort _ ks).mem_iff

theorem jsGetV_size_le {v w : JVal} {k : Str} (h : jsGetV v k = some w) :
    jsize w ≤ jsize v := by
  cases v with
  | obj m => exact Nat.le_of_lt (jsize_getV h)
  | arr xs =>
    simp only [jsGetV] at h
    cases hn : canonNat? k with
    | none => rw [hn] at h; cases h
    | some n =>
      rw [hn] at h
      simp at h
      have hmem : w ∈ xs := List.getElem?_mem h
      have h1 : jsize w ≤ jsizeL xs := jsizeL_mem xs w hmem
      have h2 : jsize (JVal.arr xs) = 1 + jsizeL xs := by simp [jsize]
      omega
  | str s =>
    simp only [jsGetV] at h
    cases hn : canonNat? k with
    | none => rw [hn] at h; cases h
    | some n =>
      rw [hn] at h
      simp at h
      obtain ⟨c, _, hw⟩ := h
      rw [← hw]
      simp [jsize]

theorem stringifyF_irrel :
    ∀ f g nodeO name indent indentStr eol sort,
      jsizeO nodeO ≤ f → jsizeO nodeO ≤ g →
      stringifyF f nodeO name indent indentStr eol sort =
        stringifyF g nodeO name indent indentStr eol sort := by
  have hpos : ∀ nodeO : Option JVal, 1 ≤ jsizeO nodeO := by
    intro nodeO
    cases nodeO with
    | none => simp [jsizeO]
    | some v => simp [jsizeO]; exact jsize_pos v
  intro f
  induction f with
  | zero =>
    intro g nodeO name indent indentStr eol sort hf _
    have := hpos nodeO
    omega
  | succ f ih =>
    intro g nodeO name indent indentStr eol sort hf hg
    cases g with
    | zero =>
      have := hpos nodeO
      omega
    | succ g =>
      simp only [stringifyF]
      rcases hra : (if indent = 0 then
          if nameFalsy name then
            (xmlHeaderStr ++ eol,
             nodeO.bind (fun v => jsGetV v (nameStr (jsFirstKeyO nodeO))),
             jsFirstKeyO nodeO)
          else (xmlHeaderStr ++ eol, nodeO, name)
        else ([], nodeO, name)) with ⟨xml0, nodeO2, name2⟩
      have hsz : jsizeO nodeO2 ≤ jsizeO nodeO := by
        by_cases hi : indent = 0
        · by_cases hn : nameFalsy name
          · simp [hi, hn] at hra
            rcases hra with ⟨_, hnode2, _⟩
            cases nodeO with
            | none => simp at hnode2; simp [← hnode2, jsizeO]
            | some v =>
              simp at hnode2
              cases hget : jsGetV v (nameStr (jsFirstKeyO (some v))) with
              | none =>
                rw [hget] at hnode2
                rw [← hnode2]
                simp [jsizeO]
                exact jsize_pos v
              | some w =>
                rw [hget] at hnode2
                rw [← hnode2]
                simp [jsizeO]
                exact jsGetV_size_le hget
          · simp [hi, hn] at hra
            rcases hra with ⟨_, h2, _⟩
            rw [← h2]
        · simp [hi] at hra
          rcases hra with ⟨_, h2, _⟩
          rw [← h2]
      dsimp only
      cases nodeO2 with
      | none => rfl
      | some v =>
        cases v with
        | str s => rfl
        | arr xs =>
          dsimp only
          congr 1
          apply List.foldl_ext
          intro acc x hx
          congr 1
          have hxsz : jsize x ≤ jsizeL xs := jsizeL_mem xs x hx
          have harr : jsize (JVal.arr xs) = 1 + jsizeL xs := by simp [jsize]
          have hsz2 : jsize (JVal.arr xs) ≤ jsizeO nodeO := by simpa [jsizeO] using hsz
          exact ih g (some x) name2 indent indentStr eol sort
            (by simp [jsizeO]; omega) (by simp [jsizeO]; omega)
        | obj m =>
          dsimp only
          have hsz2 : jsize (JVal.obj m) ≤ jsizeO nodeO := by simpa [jsizeO] using hsz
          by_cases hnk : numKeys m > (if (getV m (("_Attribs").toList)).isSome then 1 else 0)
          · rw [if_pos hnk, if_pos hnk]
            by_cases hdt : truthyO (getV m (("_Data").toList))
            · rw [if_pos hdt, if_pos hdt]
            · rw [if_neg hdt, if_neg hdt]
              have hfold : List.foldl
                  (fun acc k =>
                    if (!(k == ("_Attribs").toList) && validTagName k) = true then
                      acc ++ stringifyF f (jsGetV (JVal.obj m) k) (some k) (indent + 1) indentStr eol sort
                    else acc) []
                  (if sort = true then sortKeys (m.map (·.1)) else m.map (·.1)) =
                List.foldl
                  (fun acc k =>
                    if (!(k == ("_Attribs").toList) && validTagName k) = true then
                      acc ++ stringifyF g (jsGetV (JVal.obj m) k) (some k) (indent + 1) indentStr eol sort
                    else acc) []
                  (if sort = true then sortKeys (m.map (·.1)) else m.map (·.1)) := by
                apply List.foldl_ext
                intro acc k hk
                by_cases hvk : (!(k == ("_Attribs").toList) && validTagName k) = true
                · rw [if_pos hvk, if_pos hvk]
                  congr 1
                  have hkmem : k ∈ m.map (·.1) := by
                    by_cases hsort : sort
                    · rw [if_pos hsort] at hk; exact mem_sortKeys.mp hk
                    · rw [if_neg hsort] at hk; exact hk
                  obtain ⟨w, hw⟩ := getV_isSome_of_mem_keys hkmem
                  have hwlt : jsize w < jsize (.obj m) := jsize_getV hw
                  show stringifyF f (jsGetV (.obj m) k) _ _ _ _ _ =
                       stringifyF g (jsGetV (.obj m) k) _ _ _ _ _
                  rw [show jsGetV (.obj m) k = getV m k from rfl, hw]
                  exact ih g (some w) (some k) (indent + 1) indentStr eol sort
                    (by simp [jsizeO]; omega) (by simp [jsizeO]; omega)
                · rw [if_neg hvk, if_neg hvk]
              rw [hfold]
          · rw [if_neg hnk, if_neg hnk]

/-! ## Parser invariants (C6 / C9 / C1 support) -/

theorem nextTagGo_length :
    ∀ (s acc b body rest : Str), nextTagGo acc s = some (b, body, rest) →
      rest.length < s.length := by
  intro s
  induction s with
  | nil => intro acc b body rest h; cases h
  | cons c r ih =>
    intro acc b body rest h
    rw [nextTagGo] at h
    by_cases hc : c = '<'
    · rw [if_pos hc] at h
      cases hnc : nextClose r with
      | none => rw [hnc] at h; cases h
      | some p =>
        obtain ⟨seg, r2⟩ := p
        rw [hnc] at h
        dsimp only at h
        by_cases hemp : seg.isEmpty
        · rw [if_pos hemp] at h
          have := ih [] b body rest h
          simp
          omega
        · rw [if_neg hemp] at h
          cases h
          have := nextClose_some_length hnc
          simp
          omega
    · rw [if_neg hc] at h
      have := ih (c :: acc) b body rest h
      simp
      omega

theorem nextTagS_length {s b body rest : Str} (h : nextTagS s = some (b, body, rest)) :
    rest.length < s.length := nextTagGo_length s [] b body rest h

theorem pushError_spec (text key tag : Str) (st : PState) :
    (pushError text key tag st).1 = getLastError (pushError text key tag st).2.errors ∧
    (pushError text key tag st).2.errors ≠ [] ∧
    (pushError text key tag st).2.errors =
      st.errors ++ [⟨key, '<' :: (tag ++ ['>']),
        ((text.take st.lastIndex).count '\n' : Int) + 1 - (tag.count '\n' : Int)⟩] := by
  unfold pushError
  refine ⟨rfl, by simp, rfl⟩

theorem pspec_step {fuel : Nat} {s2 s : Str} {st2 st : PState}
    {r : PRes (JObj × Str × PState)}
    (h : PSpec fuel s2 st2 r) (hlen : s2.length < s.length)
    (herr : st2.errors = st.errors) : PSpec (fuel + 1) s st r := by
  cases r with
  | ok p =>
    obtain ⟨h1, h2⟩ := h
    exact ⟨h1.trans herr, by omega⟩
  | err m st' => exact h
  | fuelOut => simp [PSpec] at h ⊢; omega

theorem parseNode_spec (cfg : Cfg) (text : Str) :
    ∀ fuel s name isRoot branch st,
      PSpec fuel s st (parseNode cfg text fuel s name isRoot branch st) := by
  intro fuel
  induction fuel with
  | zero =>
    intro s name isRoot branch st
    simp [parseNode, PSpec]
  | succ fuel ih =>
    intro s name isRoot branch st
    rw [show parseNode cfg text (fuel + 1) s name isRoot branch st =
      parseNodeStep cfg text (parseNode cfg text fuel) s name isRoot branch st from rfl]
    rw [parseNodeStep.eq_def]
    cases hnt : nextTagS s with
    | none =>
      cases name with
      | some n =>
        exact ⟨(pushError_spec _ _ _ _).1, (pushError_spec _ _ _ _).2.1⟩
      | none => exact ⟨rfl, le_refl _⟩
    | some triple =>
      obtain ⟨before, body, restAfter⟩ := triple
      have hrlt : restAfter.length < s.length := nextTagS_length hnt
      dsimp only
      by_cases hsp : isSpecialTag body
      · rw [if_pos hsp]
        by_cases hpi : isPITag body
        · rw [if_pos hpi]
          by_cases hpiok : piNodeOk body
          · rw [if_pos hpiok]
            exact pspec_step (ih _ _ _ _ _) hrlt rfl
          · rw [if_neg hpiok]
            exact ⟨(pushError_spec _ _ _ _).1, (pushError_spec _ _ _ _).2.1⟩
        · rw [if_neg hpi]
          by_cases hcm : isCommentTag body
          · rw [if_pos hcm]
            cases hscan : scanUntil endComment body restAfter with
            | ok tagFull rest2 =>
              have hs := scanUntil_spec endComment body restAfter
              rw [hscan] at hs
              exact pspec_step (ih _ _ _ _ _) (by omega) rfl
            | unclosed tagAcc =>
              exact ⟨(pushError_spec _ _ _ _).1, (pushError_spec _ _ _ _).2.1⟩
            | fuelOut =>
              have hs := scanUntil_spec endComment body restAfter
              rw [hscan] at hs
              exact absurd hs (by simp)
          · rw [if_neg hcm]
            by_cases hdtd : isDTDTag body
            · rw [if_pos hdtd]
              by_cases hext : externalDTDOk body
              · rw [if_pos hext]
                exact pspec_step (ih _ _ _ _ _) hrlt rfl
              · rw [if_neg hext]
                by_cases hinl : inlineDTDOk body
                · rw [if_pos hinl]
                  cases hscan : scanUntil endDTD body restAfter with
                  | ok tagFull rest2 =>
                    have hs := scanUntil_spec endDTD body restAfter
                    rw [hscan] at hs
                    dsimp only
                    by_cases hok : dtdNodeOk tagFull
                    · rw [if_pos hok]
                      exact pspec_step (ih _ _ _ _ _) (by omega) rfl
                    · rw [if_neg hok]
                      exact ⟨(pushError_spec _ _ _ _).1, (pushError_spec _ _ _ _).2.1⟩
                  | unclosed tagAcc =>
                    exact ⟨(pushError_spec _ _ _ _).1, (pushError_spec _ _ _ _).2.1⟩
                  | fuelOut =>
                    have hs := scanUntil_spec endDTD body restAfter
                    rw [hscan] at hs
                    exact absurd hs (by simp)
                · rw [if_neg hinl]
                  exact ⟨(pushError_spec _ _ _ _).1, (pushError_spec _ _ _ _).2.1⟩
            · rw [if_neg hdtd]
              by_cases hcd : isCDATATag body
              · rw [if_pos hcd]
                cases hscan : scanUntil endCDATA body restAfter with
                | ok tagFull rest2 =>
                  have hs := scanUntil_spec endCDATA body restAfter
                  rw [hscan] at hs
                  dsimp only
                  cases hex : cdataExtract tagFull with
                  | some payload =>
                    exact pspec_step (ih _ _ _ _ _) (by omega) rfl
                  | none =>
                    exact ⟨(pushError_spec _ _ _ _).1, (pushError_spec _ _ _ _).2.1⟩
                | unclosed tagAcc =>
                  exact ⟨(pushError_spec _ _ _ _).1, (pushError_spec _ _ _ _).2.1⟩
                | fuelOut =>
                  have hs := scanUntil_spec endCDATA body restAfter
                  rw [hscan] at hs
                  exact absurd hs (by simp)
              · rw [if_neg hcd]
                exact ⟨(pushError_spec _ _ _ _).1, (pushError_spec _ _ _ _).2.1⟩
      · rw [if_neg hsp]
        cases hstd : parseStandardTag body with
        | none =>
          exact ⟨(pushError_spec _ _ _ _).1, (pushError_spec _ _ _ _).2.1⟩
        | some t =>
          obtain ⟨closing, rawName, attribsRaw⟩ := t
          dsimp only
          by_cases hcl : closing
          · rw [if_pos hcl]
            by_cases hmatch : ((if cfg.lowerCase then toLowerStr rawName else rawName) ==
                name.getD []) = true
            · rw [if_pos hmatch]
              exact ⟨rfl, Nat.le_of_lt hrlt⟩
            · rw [if_neg hmatch]
              exact ⟨(pushError_spec _ _ _ _).1, (pushError_spec _ _ _ _).2.1⟩
          · rw [if_neg hcl]
            by_cases hsc : selfClosingCheck attribsRaw
            · rw [if_pos hsc]
              dsimp only
              by_cases hroot : isRoot
              · rw [if_pos hroot]
                exact ⟨rfl, Nat.le_of_lt hrlt⟩
              · rw [if_neg hroot]
                exact pspec_step (ih _ _ _ _ _) hrlt rfl
            · rw [if_neg hsc]
              cases hchild : parseNode cfg text fuel restAfter
                  (some (if cfg.lowerCase then toLowerStr rawName else rawName)) false
                  (if cfg.preserveAttributes then
                    if ((attribScan attribsRaw).map
                        (fun p => (if cfg.lowerCase then toLowerStr p.1 else p.1,
                          decodeEntities p.2))).isEmpty then []
                    else [(cfg.attribsKey, JVal.obj (buildAttribs ((attribScan attribsRaw).map
                      (fun p => (if cfg.lowerCase then toLowerStr p.1 else p.1,
                        decodeEntities p.2)))))]
                  else buildAttribs ((attribScan attribsRaw).map
                    (fun p => (if cfg.lowerCase then toLowerStr p.1 else p.1,
                      decodeEntities p.2))))
                  { st with lastIndex := text.length - restAfter.length } with
              | ok p =>
                obtain ⟨leaf2, rest2, st2⟩ := p
                have hrec := ih restAfter
                  (some (if cfg.lowerCase then toLowerStr rawName else rawName)) false
                  (if cfg.preserveAttributes then
                    if ((attribScan attribsRaw).map
                        (fun p => (if cfg.lowerCase then toLowerStr p.1 else p.1,
                          decodeEntities p.2))).isEmpty then []
                    else [(cfg.attribsKey, JVal.obj (buildAttribs ((attribScan attribsRaw).map
                      (fun p => (if cfg.lowerCase then toLowerStr p.1 else p.1,
                        decodeEntities p.2)))))]
                  else buildAttribs ((attribScan attribsRaw).map
                    (fun p => (if cfg.lowerCase then toLowerStr p.1 else p.1,
                      decodeEntities p.2))))
                  { st with lastIndex := text.length - restAfter.length }
                rw [hchild] at hrec
                obtain ⟨herr2a, hlen2a⟩ := hrec
                have herr2 : st2.errors = st.errors := herr2a
                have hlen2 : rest2.length ≤ restAfter.length := hlen2a
                dsimp only
                by_cases hroot : isRoot
                · rw [if_pos hroot]
                  exact ⟨herr2, Nat.le_of_lt (Nat.lt_of_le_of_lt hlen2 hrlt)⟩
                · rw [if_neg hroot]
                  exact pspec_step (ih _ _ _ _ _) (by omega) herr2
              | err m st2 =>
                have hrec := ih restAfter
                  (some (if cfg.lowerCase then toLowerStr rawName else rawName)) false
                  (if cfg.preserveAttributes then
                    if ((attribScan attribsRaw).map
                        (fun p => (if cfg.lowerCase then toLowerStr p.1 else p.1,
                          decodeEntities p.2))).isEmpty then []
                    else [(cfg.attribsKey, JVal.obj (buildAttribs ((attribScan attribsRaw).map
                      (fun p => (if cfg.lowerCase then toLowerStr p.1 else p.1,
                        decodeEntities p.2)))))]
                  else buildAttribs ((attribScan attribsRaw).map
                    (fun p => (if cfg.lowerCase then toLowerStr p.1 else p.1,
                      decodeEntities p.2))))
                  { st with lastIndex := text.length - restAfter.length }
                rw [hchild] at hrec
                exact hrec
              | fuelOut =>
                have hrec := ih restAfter
                  (some (if cfg.lowerCase then toLowerStr rawName else rawName)) false
                  (if cfg.preserveAttributes then
                    if ((attribScan attribsRaw).map
                        (fun p => (if cfg.lowerCase then toLowerStr p.1 else p.1,
                          decodeEntities p.2))).isEmpty then []
                    else [(cfg.attribsKey, JVal.obj (buildAttribs ((attribScan attribsRaw).map
                      (fun p => (if cfg.lowerCase then toLowerStr p.1 else p.1,
                        decodeEntities p.2)))))]
                  else buildAttribs ((attribScan attribsRaw).map
                    (fun p => (if cfg.lowerCase then toLowerStr p.1 else p.1,
                      decodeEntities p.2))))
                  { st with lastIndex := text.length - restAfter.length }
                rw [hchild] at hrec
                simp only [PSpec] at hrec ⊢
                omega

theorem runXML_spec (emptyLeaf : Bool) (opts : XMLOpts) (text : Str) :
    match runXML emptyLeaf opts text with
    | .ok inst => inst.errors = []
    | .thrown m st => st.errors ≠ [] ∧ m = getLastError st.errors
    | .fuelOut => False := by
  unfold runXML
  by_cases hemp : text.isEmpty
  · rw [if_pos hemp]
  · rw [if_neg hemp]
    have hspec := parseNode_spec (mkCfg opts emptyLeaf) text (text.length + 1) text
      none true [] initPState
    cases hp : parseNode (mkCfg opts emptyLeaf) text (text.length + 1) text
        none true [] initPState with
    | fuelOut =>
      rw [hp] at hspec
      simp [PSpec] at hspec
    | err m st =>
      rw [hp] at hspec
      exact ⟨hspec.2, hspec.1⟩
    | ok p =>
      obtain ⟨tree0, s', st⟩ := p
      rw [hp] at hspec
      have herr : st.errors = [] := by
        have h1 : st.errors = initPState.errors := hspec.1
        simpa [initPState] using h1
      dsimp only
      by_cases hnum : numKeys (delV tree0 (mkCfg opts emptyLeaf).dataKey) > 1
      · rw [if_pos hnum]
        refine ⟨(pushError_spec _ _ _ _).2.1, (pushError_spec _ _ _ _).1⟩
      · rw [if_neg hnum]
        exact herr

/-! ## Simulation lemmas for the two implementation copies (C9 support) -/

theorem leafRel_refl_size : ∀ n v, jsize v ≤ n → LeafRel v v := by
  intro n
  induction n with
  | zero => intro v h; have := jsize_pos v; omega
  | succ n ih =>
    intro v h
    cases v with
    | str s => exact .str s
    | arr xs =>
      refine .arr xs xs ?_
      have hsz : jsizeL xs ≤ n := by simp [jsize] at h; omega
      clear h
      revert hsz
      induction xs with
      | nil => intro hsz; exact .nil
      | cons x xs ihx =>
        intro hsz
        rw [jsizeL] at hsz
        have h1 := jsize_pos x
        exact .cons x x xs xs (ih x (by omega)) (ihx (by omega))
    | obj m =>
      refine .obj m m ?_
      have hsz : jsizeM m ≤ n := by simp [jsize] at h; omega
      clear h
      revert hsz
      induction m with
      | nil => intro hsz; exact .nil
      | cons p ps ihp =>
        intro hsz
        rw [jsizeM] at hsz
        have h1 := jsize_pos p.2
        have hrec := ihp (by omega)
        have hv : LeafRel p.2 p.2 := ih p.2 (by omega)
        exact (Prod.mk.eta (p := p)) ▸ LeafRelM.cons p.1 p.2 p.2 ps ps hv hrec

theorem leafRel_refl (v : JVal) : LeafRel v v := leafRel_refl_size (jsize v) v (le_refl _)

theorem leafRelM_refl (b : JObj) : LeafRelM b b := by
  induction b with
  | nil => exact .nil
  | cons p ps ih =>
    exact (Prod.mk.eta (p := p)) ▸ LeafRelM.cons p.1 p.2 p.2 ps ps (leafRel_refl p.2) ih

theorem branchRel_refl (dk : Str) (b : JObj) : BranchRel dk b b :=
  ⟨leafRelM_refl b, rfl⟩

theorem leafRel_arr_left {xs : List JVal} {y : JVal} (h : LeafRel (.arr xs) y) :
    ∃ ys, y = .arr ys ∧ LeafRelL xs ys := by
  cases h with
  | arr xs ys h2 => exact ⟨ys, rfl, h2⟩

theorem leafRel_not_arr {v1 v2 : JVal} (h : LeafRel v1 v2)
    (h1 : ∀ xs, v1 ≠ .arr xs) : ∀ ys, v2 ≠ .arr ys := by
  cases h with
  | str s => intro ys hy; cases hy
  | emptyLeaf => intro ys hy; cases hy
  | arr xs ys h2 => exact absurd rfl (h1 xs)
  | obj m1 m2 h2 => intro ys hy; cases hy

theorem leafRelL_append : ∀ {xs ys : List JVal}, LeafRelL xs ys → ∀ {v w : JVal},
    LeafRel v w → LeafRelL (xs ++ [v]) (ys ++ [w]) := by
  intro xs
  induction xs with
  | nil =>
    intro ys h v w hv
    cases h
    exact .cons v w [] [] hv .nil
  | cons x xs ih =>
    intro ys h v w hv
    cases h with
    | cons a b as bs ha hrest => exact .cons _ _ _ _ ha (ih hrest hv)

theorem getV_cons (p : Str × JVal) (xs : JObj) (k' : Str) :
    getV (p :: xs) k' = if p.1 == k' then some p.2 else getV xs k' := by
  by_cases h : p.1 == k'
  · simp [getV, List.find?, h]
  · simp [getV, List.find?, h]

theorem leafRelM_length : ∀ {b1 b2 : JObj}, LeafRelM b1 b2 → b1.length = b2.length := by
  intro b1
  induction b1 with
  | nil => intro b2 h; cases h; rfl
  | cons p ps ih =>
    intro b2 h
    cases h with
    | cons k v w xs ys hv hrest => simp [ih hrest]

theorem leafRelM_firstKey {b1 b2 : JObj} (h : LeafRelM b1 b2) : firstKey b1 = firstKey b2 := by
  cases h with
  | nil => rfl
  | cons k v w xs ys hv hrest => rfl

theorem leafRelM_getV : ∀ {b1 b2 : JObj}, LeafRelM b1 b2 → ∀ (k : Str),
    (getV b1 k = none ∧ getV b2 k = none) ∨
    ∃ v1 v2, getV b1 k = some v1 ∧ getV b2 k = some v2 ∧ LeafRel v1 v2 := by
  intro b1
  induction b1 with
  | nil => intro b2 h k; cases h; exact Or.inl ⟨rfl, rfl⟩
  | cons p ps ih =>
    intro b2 h k
    cases h with
    | cons k0 v w xs ys hv hrest =>
      rw [getV_cons, getV_cons]
      dsimp only
      by_cases hk : k0 == k
      · rw [if_pos hk, if_pos hk]
        exact Or.inr ⟨v, w, rfl, rfl, hv⟩
      · rw [if_neg hk, if_neg hk]
        exact ih hrest k

theorem leafRelM_setV : ∀ {b1 b2 : JObj}, LeafRelM b1 b2 → ∀ (k : Str) {v1 v2 : JVal},
    LeafRel v1 v2 → LeafRelM (setV b1 k v1) (setV b2 k v2) := by
  intro b1
  induction b1 with
  | nil =>
    intro b2 h k v1 v2 hv
    cases h
    exact .cons k v1 v2 [] [] hv .nil
  | cons p ps ih =>
    intro b2 h k v1 v2 hv
    cases h with
    | cons k0 v w xs ys hvp hrest =>
      rw [setV, setV]
      by_cases hk : k0 == k
      · rw [if_pos hk, if_pos hk]
        exact .cons k0 v1 v2 _ _ hv hrest
      · rw [if_neg hk, if_neg hk]
        exact .cons k0 v w _ _ hvp (ih hrest k hv)

theorem leafRelM_delV : ∀ {b1 b2 : JObj}, LeafRelM b1 b2 → ∀ (k : Str),
    LeafRelM (delV b1 k) (delV b2 k) := by
  intro b1
  induction b1 with
  | nil => intro b2 h k; cases h; exact .nil
  | cons p ps ih =>
    intro b2 h k
    cases h with
    | cons k0 v w xs ys hvp hrest =>
      rw [delV, delV]
      by_cases hk : k0 == k
      · rw [if_pos hk, if_pos hk]
        exact hrest
      · rw [if_neg hk, if_neg hk]
        exact .cons k0 v w _ _ hvp (ih hrest k)

theorem getV_setV_same (b : JObj) (k : Str) (v : JVal) : getV (setV b k v) k = some v := by
  induction b with
  | nil => simp [setV, getV, List.find?]
  | cons p ps ih =>
    rw [setV]
    by_cases hpk : p.1 == k
    · rw [if_pos hpk, getV_cons]
      dsimp only
      rw [if_pos hpk]
    · rw [if_neg hpk, getV_cons]
      rw [if_neg hpk]
      exact ih

theorem getV_setV_ne (b : JObj) (k k' : Str) (v : JVal) (hne : ¬ (k == k') = true) :
    getV (setV b k v) k' = getV b k' := by
  induction b with
  | nil => simp [setV, getV, List.find?, hne]
  | cons p ps ih =>
    rw [setV]
    by_cases hpk : p.1 == k
    · have hp' : ¬ (p.1 == k') = true := by
        simp at hpk ⊢
        rw [hpk]
        simpa using hne
      rw [if_pos hpk, getV_cons, getV_cons]
      dsimp only
      rw [if_neg hp', if_neg hp']
    · rw [if_neg hpk, getV_cons]
      conv_rhs => rw [getV_cons]
      by_cases hp' : p.1 == k'
      · rw [if_pos hp', if_pos hp']
      · rw [if_neg hp', if_neg hp']
        exact ih

theorem withFlag_preserveDocumentNode (cfg : Cfg) (b : Bool) :
    (withFlag cfg b).preserveDocumentNode = cfg.preserveDocumentNode := rfl

theorem withFlag_preserveAttributes (cfg : Cfg) (b : Bool) :
    (withFlag cfg b).preserveAttributes = cfg.preserveAttributes := rfl

theorem withFlag_preserveWhitespace (cfg : Cfg) (b : Bool) :
    (withFlag cfg b).preserveWhitespace = cfg.preserveWhitespace := rfl

theorem withFlag_lowerCase (cfg : Cfg) (b : Bool) :
    (withFlag cfg b).lowerCase = cfg.lowerCase := rfl

theorem withFlag_forceArrays (cfg : Cfg) (b : Bool) :
    (withFlag cfg b).forceArrays = cfg.forceArrays := rfl

theorem withFlag_attribsKey (cfg : Cfg) (b : Bool) :
    (withFlag cfg b).attribsKey = cfg.attribsKey := rfl

theorem withFlag_dataKey (cfg : Cfg) (b : Bool) :
    (withFlag cfg b).dataKey = cfg.dataKey := rfl

theorem withFlag_flag (cfg : Cfg) (b : Bool) :
    (withFlag cfg b).emptyChildlessLeaf = b := rfl

theorem nextClose_suffix {s seg rest : Str} (h : nextClose s = some (seg, rest)) :
    rest <:+ s ∧ seg <:+: s := by
  unfold nextClose at h
  split at h
  · rename_i r heq
    cases h
    constructor
    · have h1 : '>' :: rest <:+ s := heq ▸ List.dropWhile_suffix _
      exact (List.suffix_cons '>' rest).trans h1
    · exact (List.takeWhile_prefix _).isInfix
  · cases h

theorem nextTagGo_parts : ∀ (s acc b body rest : Str), nextTagGo acc s = some (b, body, rest) →
    rest <:+ s ∧ body <:+: s := by
  intro s
  induction s with
  | nil => intro acc b body rest h; cases h
  | cons c r ih =>
    intro acc b body rest h
    rw [nextTagGo] at h
    by_cases hc : c = '<'
    · rw [if_pos hc] at h
      cases hnc : nextClose r with
      | none => rw [hnc] at h; cases h
      | some p =>
        obtain ⟨seg, r2⟩ := p
        rw [hnc] at h
        dsimp only at h
        by_cases hemp : seg.isEmpty
        · rw [if_pos hemp] at h
          obtain ⟨h1, h2⟩ := ih [] b body rest h
          exact ⟨h1.trans (List.suffix_cons c r), List.infix_cons h2⟩
        · rw [if_neg hemp] at h
          cases h
          obtain ⟨h1, h2⟩ := nextClose_suffix hnc
          exact ⟨h1.trans (List.suffix_cons c r), List.infix_cons h2⟩
    · rw [if_neg hc] at h
      obtain ⟨h1, h2⟩ := ih (c :: acc) b body rest h
      exact ⟨h1.trans (List.suffix_cons c r), List.infix_cons h2⟩

theorem nextTagS_parts {s b body rest : Str} (h : nextTagS s = some (b, body, rest)) :
    rest <:+ s ∧ body <:+: s := nextTagGo_parts s [] b body rest h

theorem scanUntilF_ok_suffix (done : Str → Bool) :
    ∀ fuel tag s t r, scanUntilF done fuel tag s = .ok t r → r <:+ s := by
  intro fuel
  induction fuel with
  | zero => intro tag s t r h; cases h
  | succ fuel ih =>
    intro tag s t r h
    rw [scanUntilF] at h
    by_cases hd : done tag
    · rw [if_pos hd] at h
      cases h
      exact List.suffix_refl _
    · rw [if_neg hd] at h
      cases hnc : nextClose s with
      | none => rw [hnc] at h; cases h
      | some p =>
        obtain ⟨seg, rest⟩ := p
        rw [hnc] at h
        exact (ih _ _ _ _ h).trans (nextClose_suffix hnc).1

theorem scanUntil_ok_suffix {done : Str → Bool} {tag s t r : Str}
    (h : scanUntil done tag s = .ok t r) : r <:+ s :=
  scanUntilF_ok_suffix done (s.length + 1) tag s t r h

theorem parseStandardTag_name_infix {body : Str} {cl : Bool} {nm a9 : Str}
    (h : parseStandardTag body = some (cl, nm, a9)) : nm <:+: body := by
  unfold parseStandardTag at h
  have hsw : stripWs body <:+ body := List.dropWhile_suffix _
  split at h
  · rename_i r2 heq
    dsimp only at h
    by_cases hemp : (List.takeWhile isNameChar r2).isEmpty
    · rw [if_pos hemp] at h
      cases h
    · rw [if_neg hemp] at h
      cases h
      refine (List.takeWhile_prefix _).isInfix.trans ?_
      exact (((List.suffix_cons '/' r2).trans (heq ▸ hsw))).isInfix
  · dsimp only at h
    by_cases hemp : (List.takeWhile isNameChar (stripWs body)).isEmpty
    · rw [if_pos hemp] at h
      cases h
    · rw [if_neg hemp] at h
      cases h
      exact (List.takeWhile_prefix _).isInfix.trans hsw.isInfix

theorem dataAppend_rel {c1 c2 : Cfg} (hpw : c1.preserveWhitespace = c2.preserveWhitespace)
    (hdk : c1.dataKey = c2.dataKey) {b1 b2 : JObj} (hb : BranchRel c1.dataKey b1 b2)
    (raw : Str) : BranchRel c1.dataKey (dataAppend c1 b1 raw) (dataAppend c2 b2 raw) := by
  obtain ⟨hm, hg⟩ := hb
  unfold dataAppend
  rw [← hpw, ← hdk, ← hg]
  cases hgv : getV b1 c1.dataKey with
  | none =>
    exact ⟨leafRelM_setV hm _ (.str _), by rw [getV_setV_same, getV_setV_same]⟩
  | some old =>
    exact ⟨leafRelM_setV hm _ (.str _), by rw [getV_setV_same, getV_setV_same]⟩

theorem attachLeaf_rel {c1 c2 : Cfg} (hfa : c1.forceArrays = c2.forceArrays)
    {dk : Str} {b1 b2 : JObj} (hb : BranchRel dk b1 b2) (isRoot : Bool) (n : Str)
    (hn : ¬ (n == dk) = true) {v1 v2 : JVal} (hv : LeafRel v1 v2) :
    BranchRel dk (attachLeaf c1 isRoot b1 n v1) (attachLeaf c2 isRoot b2 n v2) := by
  obtain ⟨hm, hg⟩ := hb
  unfold attachLeaf
  rcases leafRelM_getV hm n with ⟨h1, h2⟩ | ⟨w1, w2, h1, h2, hw⟩
  · rw [h1, h2, ← hfa]
    by_cases hf : (c1.forceArrays && !isRoot) = true
    · rw [if_pos hf, if_pos hf]
      refine ⟨leafRelM_setV hm _ (.arr _ _ (.cons v1 v2 [] [] hv .nil)), ?_⟩
      rw [getV_setV_ne _ _ _ _ hn, getV_setV_ne _ _ _ _ hn]
      exact hg
    · rw [if_neg hf, if_neg hf]
      refine ⟨leafRelM_setV hm _ hv, ?_⟩
      rw [getV_setV_ne _ _ _ _ hn, getV_setV_ne _ _ _ _ hn]
      exact hg
  · rw [h1, h2]
    cases hw with
    | str s =>
      refine ⟨leafRelM_setV hm _ (.arr _ _ (.cons _ _ _ _ (.str s)
        (.cons v1 v2 [] [] hv .nil))), ?_⟩
      rw [getV_setV_ne _ _ _ _ hn, getV_setV_ne _ _ _ _ hn]
      exact hg
    | emptyLeaf =>
      refine ⟨leafRelM_setV hm _ (.arr _ _ (.cons _ _ _ _ .emptyLeaf
        (.cons v1 v2 [] [] hv .nil))), ?_⟩
      rw [getV_setV_ne _ _ _ _ hn, getV_setV_ne _ _ _ _ hn]
      exact hg
    | arr xs ys hl =>
      refine ⟨leafRelM_setV hm _ (.arr _ _ (leafRelL_append hl hv)), ?_⟩
      rw [getV_setV_ne _ _ _ _ hn, getV_setV_ne _ _ _ _ hn]
      exact hg
    | obj m1 m2 ho =>
      refine ⟨leafRelM_setV hm _ (.arr _ _ (.cons _ _ _ _ (.obj m1 m2 ho)
        (.cons v1 v2 [] [] hv .nil))), ?_⟩
      rw [getV_setV_ne _ _ _ _ hn, getV_setV_ne _ _ _ _ hn]
      exact hg

theorem collapseLeaf_rel {c1 c2 : Cfg} (hdk : c1.dataKey = c2.dataKey)
    (h1f : c1.emptyChildlessLeaf = false) (h2f : c2.emptyChildlessLeaf = true)
    {l1 l2 : JObj} (hb : BranchRel c1.dataKey l1 l2) :
    LeafRel (collapseLeaf c1 l1) (collapseLeaf c2 l2) := by
  obtain ⟨hm, hg⟩ := hb
  have hlen := leafRelM_length hm
  have hnk : numKeys l2 = numKeys l1 := hlen.symm
  unfold collapseLeaf
  rw [← hdk, ← hg, hnk]
  cases hgv : getV l1 c1.dataKey with
  | some d =>
    dsimp only
    by_cases hk : numKeys l1 = 1
    · rw [if_pos hk, if_pos hk]
      exact leafRel_refl d
    · rw [if_neg hk, if_neg hk]
      exact .obj _ _ hm
  | none =>
    dsimp only
    have hc1 : ¬ ((c1.emptyChildlessLeaf && decide (numKeys l1 = 0)) = true) := by
      simp [h1f]
    rw [if_neg hc1]
    by_cases hz : numKeys l1 = 0
    · have hc2 : (c2.emptyChildlessLeaf && decide (numKeys l1 = 0)) = true := by
        simp [h2f, hz]
      rw [if_pos hc2]
      have hl1 : l1 = [] := List.length_eq_zero.mp hz
      subst hl1
      cases hm
      exact .emptyLeaf
    · have hc2 : ¬ ((c2.emptyChildlessLeaf && decide (numKeys l1 = 0)) = true) := by
        simp [h2f, hz]
      rw [if_neg hc2]
      exact .obj _ _ hm

theorem parseNode_sim (cfg : Cfg) (text : Str)
    (H : ¬ cfg.dataKey <:+: (if cfg.lowerCase then toLowerStr text else text)) :
    ∀ fuel s name isRoot b1 b2 st, s <:+ text → BranchRel cfg.dataKey b1 b2 →
    SimOk cfg.dataKey text
      (parseNode (withFlag cfg false) text fuel s name isRoot b1 st)
      (parseNode (withFlag cfg true) text fuel s name isRoot b2 st) := by
  intro fuel
  induction fuel with
  | zero =>
    intro s name isRoot b1 b2 st hs hb
    simp [parseNode, SimOk]
  | succ fuel ih =>
    intro s name isRoot b1 b2 st hs hb
    rw [show parseNode (withFlag cfg false) text (fuel + 1) s name isRoot b1 st =
      parseNodeStep (withFlag cfg false) text (parseNode (withFlag cfg false) text fuel)
        s name isRoot b1 st from rfl]
    rw [show parseNode (withFlag cfg true) text (fuel + 1) s name isRoot b2 st =
      parseNodeStep (withFlag cfg true) text (parseNode (withFlag cfg true) text fuel)
        s name isRoot b2 st from rfl]
    simp only [parseNodeStep.eq_def, withFlag_preserveDocumentNode, withFlag_preserveAttributes,
      withFlag_preserveWhitespace, withFlag_lowerCase, withFlag_forceArrays,
      withFlag_attribsKey, withFlag_dataKey]
    cases hnt : nextTagS s with
    | none =>
      cases name with
      | some n => exact ⟨rfl, rfl⟩
      | none => exact ⟨hb, rfl, rfl, hs⟩
    | some triple =>
      obtain ⟨before, body, restAfter⟩ := triple
      have hparts := nextTagS_parts hnt
      have hsr : restAfter <:+ text := hparts.1.trans hs
      dsimp only
      have hb2 : BranchRel cfg.dataKey
          (if before.any (fun c => !isJsWs c) then dataAppend (withFlag cfg false) b1 before
           else b1)
          (if before.any (fun c => !isJsWs c) then dataAppend (withFlag cfg true) b2 before
           else b2) := by
        by_cases hdat : (before.any (fun c => !isJsWs c)) = true
        · rw [if_pos hdat, if_pos hdat]
          exact dataAppend_rel rfl rfl hb before
        · rw [if_neg hdat, if_neg hdat]
          exact hb
      by_cases hsp : isSpecialTag body = true
      · rw [if_pos hsp, if_pos hsp]
        by_cases hpi : isPITag body = true
        · rw [if_pos hpi, if_pos hpi]
          by_cases hpiok : piNodeOk body = true
          · rw [if_pos hpiok, if_pos hpiok]
            exact ih _ _ _ _ _ _ hsr hb2
          · rw [if_neg hpiok, if_neg hpiok]
            exact ⟨rfl, rfl⟩
        · rw [if_neg hpi, if_neg hpi]
          by_cases hcm : isCommentTag body = true
          · rw [if_pos hcm, if_pos hcm]
            cases hscan : scanUntil endComment body restAfter with
            | ok tagFull rest2 =>
              exact ih _ _ _ _ _ _ ((scanUntil_ok_suffix hscan).trans hsr) hb2
            | unclosed tagAcc => exact ⟨rfl, rfl⟩
            | fuelOut => trivial
          · rw [if_neg hcm, if_neg hcm]
            by_cases hdtd : isDTDTag body = true
            · rw [if_pos hdtd, if_pos hdtd]
              by_cases hext : externalDTDOk body = true
              · rw [if_pos hext, if_pos hext]
                exact ih _ _ _ _ _ _ hsr hb2
              · rw [if_neg hext, if_neg hext]
                by_cases hinl : inlineDTDOk body = true
                · rw [if_pos hinl, if_pos hinl]
                  cases hscan : scanUntil endDTD body restAfter with
                  | ok tagFull rest2 =>
                    dsimp only
                    by_cases hok : dtdNodeOk tagFull = true
                    · rw [if_pos hok, if_pos hok]
                      exact ih _ _ _ _ _ _ ((scanUntil_ok_suffix hscan).trans hsr) hb2
                    · rw [if_neg hok, if_neg hok]
                      exact ⟨rfl, rfl⟩
                  | unclosed tagAcc => exact ⟨rfl, rfl⟩
                  | fuelOut => trivial
                · rw [if_neg hinl, if_neg hinl]
                  exact ⟨rfl, rfl⟩
            · rw [if_neg hdtd, if_neg hdtd]
              by_cases hcd : isCDATATag body = true
              · rw [if_pos hcd, if_pos hcd]
                cases hscan : scanUntil endCDATA body restAfter with
                | ok tagFull rest2 =>
                  dsimp only
                  cases hex : cdataExtract tagFull with
                  | some payload =>
                    exact ih _ _ _ _ _ _ ((scanUntil_ok_suffix hscan).trans hsr)
                      (dataAppend_rel rfl rfl hb2 payload)
                  | none => exact ⟨rfl, rfl⟩
                | unclosed tagAcc => exact ⟨rfl, rfl⟩
                | fuelOut => trivial
              · rw [if_neg hcd, if_neg hcd]
                exact ⟨rfl, rfl⟩
      · rw [if_neg hsp, if_neg hsp]
        cases hstd : parseStandardTag body with
        | none => exact ⟨rfl, rfl⟩
        | some t =>
          obtain ⟨closing, rawName, attribsRaw⟩ := t
          dsimp only
          have hnm : rawName <:+: body := parseStandardTag_name_infix hstd
          have hnn : ¬ (((if cfg.lowerCase then toLowerStr rawName else rawName) : Str) ==
              cfg.dataKey) = true := by
            intro he
            apply H
            have heq : (if cfg.lowerCase then toLowerStr rawName else rawName) = cfg.dataKey := by
              simpa using he
            have hrt : rawName <:+: text := hnm.trans (hparts.2.trans hs.isInfix)
            rw [← heq]
            by_cases hlc : cfg.lowerCase = true
            · rw [if_pos hlc, if_pos hlc]
              exact hrt.map Char.toLower
            · rw [if_neg hlc, if_neg hlc]
              exact hrt
          by_cases hcl : closing = true
          · rw [if_pos hcl, if_pos hcl]
            by_cases hmt : (((if cfg.lowerCase then toLowerStr rawName else rawName) : Str) ==
                name.getD []) = true
            · rw [if_pos hmt, if_pos hmt]
              exact ⟨hb2, rfl, rfl, hsr⟩
            · rw [if_neg hmt, if_neg hmt]
              exact ⟨rfl, rfl⟩
          · rw [if_neg hcl, if_neg hcl]
            by_cases hsc : selfClosingCheck attribsRaw = true
            · rw [if_pos hsc, if_pos hsc]
              dsimp only
              by_cases hroot : isRoot = true
              · rw [if_pos hroot, if_pos hroot]
                refine ⟨@attachLeaf_rel (withFlag cfg false) (withFlag cfg true) rfl _ _ _
                  hb2 isRoot _ hnn _ _
                  (@collapseLeaf_rel (withFlag cfg false) (withFlag cfg true) rfl rfl rfl _ _
                    (branchRel_refl _ _)), rfl, rfl, hsr⟩
              · rw [if_neg hroot, if_neg hroot]
                exact ih _ _ _ _ _ _ hsr
                  (@attachLeaf_rel (withFlag cfg false) (withFlag cfg true) rfl _ _ _
                    hb2 isRoot _ hnn _ _
                    (@collapseLeaf_rel (withFlag cfg false) (withFlag cfg true) rfl rfl rfl _ _
                      (branchRel_refl _ _)))
            · rw [if_neg hsc, if_neg hsc]
              have hrec := ih restAfter (some (if cfg.lowerCase then toLowerStr rawName
                  else rawName)) false
                (if cfg.preserveAttributes then
                  if ((attribScan attribsRaw).map
                      (fun p => (if cfg.lowerCase then toLowerStr p.1 else p.1,
                        decodeEntities p.2))).isEmpty then []
                  else [(cfg.attribsKey, JVal.obj (buildAttribs ((attribScan attribsRaw).map
                    (fun p => (if cfg.lowerCase then toLowerStr p.1 else p.1,
                      decodeEntities p.2)))))]
                else buildAttribs ((attribScan attribsRaw).map
                  (fun p => (if cfg.lowerCase then toLowerStr p.1 else p.1,
                    decodeEntities p.2))))
                (if cfg.preserveAttributes then
                  if ((attribScan attribsRaw).map
                      (fun p => (if cfg.lowerCase then toLowerStr p.1 else p.1,
                        decodeEntities p.2))).isEmpty then []
                  else [(cfg.attribsKey, JVal.obj (buildAttribs ((attribScan attribsRaw).map
                    (fun p => (if cfg.lowerCase then toLowerStr p.1 else p.1,
                      decodeEntities p.2)))))]
                else buildAttribs ((attribScan attribsRaw).map
                  (fun p => (if cfg.lowerCase then toLowerStr p.1 else p.1,
                    decodeEntities p.2))))
                { st with lastIndex := text.length - restAfter.length }
                hsr (branchRel_refl _ _)
              cases hch1 : parseNode (withFlag cfg false) text fuel restAfter
                  (some (if cfg.lowerCase then toLowerStr rawName else rawName)) false
                  (if cfg.preserveAttributes then
                    if ((attribScan attribsRaw).map
                        (fun p => (if cfg.lowerCase then toLowerStr p.1 else p.1,
                          decodeEntities p.2))).isEmpty then []
                    else [(cfg.attribsKey, JVal.obj (buildAttribs ((attribScan attribsRaw).map
                      (fun p => (if cfg.lowerCase then toLowerStr p.1 else p.1,
                        decodeEntities p.2)))))]
                  else buildAttribs ((attribScan attribsRaw).map
                    (fun p => (if cfg.lowerCase then toLowerStr p.1 else p.1,
                      decodeEntities p.2))))
                  { st with lastIndex := text.length - restAfter.length } with
              | err m st2 =>
                rw [hch1] at hrec
                cases hch2 : parseNode (withFlag cfg true) text fuel restAfter
                    (some (if cfg.lowerCase then toLowerStr rawName else rawName)) false
                    (if cfg.preserveAttributes then
                      if ((attribScan attribsRaw).map
                          (fun p => (if cfg.lowerCase then toLowerStr p.1 else p.1,
                            decodeEntities p.2))).isEmpty then []
                      else [(cfg.attribsKey, JVal.obj (buildAttribs ((attribScan attribsRaw).map
                        (fun p => (if cfg.lowerCase then toLowerStr p.1 else p.1,
                          decodeEntities p.2)))))]
                    else buildAttribs ((attribScan attribsRaw).map
                      (fun p => (if cfg.lowerCase then toLowerStr p.1 else p.1,
                        decodeEntities p.2))))
                    { st with lastIndex := text.length - restAfter.length } with
                | err m2 st2' =>
                  rw [hch2] at hrec
                  exact hrec
                | ok p2 =>
                  rw [hch2] at hrec
                  exact hrec.elim
                | fuelOut =>
                  rw [hch2] at hrec
                  exact hrec.elim
              | fuelOut =>
                rw [hch1] at hrec
                cases hch2 : parseNode (withFlag cfg true) text fuel restAfter
                    (some (if cfg.lowerCase then toLowerStr rawName else rawName)) false
                    (if cfg.preserveAttributes then
                      if ((attribScan attribsRaw).map
                          (fun p => (if cfg.lowerCase then toLowerStr p.1 else p.1,
                            decodeEntities p.2))).isEmpty then []
                      else [(cfg.attribsKey, JVal.obj (buildAttribs ((attribScan attribsRaw).map
                        (fun p => (if cfg.lowerCase then toLowerStr p.1 else p.1,
                          decodeEntities p.2)))))]
                    else buildAttribs ((attribScan attribsRaw).map
                      (fun p => (if cfg.lowerCase then toLowerStr p.1 else p.1,
                        decodeEntities p.2))))
                    { st with lastIndex := text.length - restAfter.length } with
                | fuelOut => trivial
                | ok p2 =>
                  rw [hch2] at hrec
                  exact hrec.elim
                | err m2 st2' =>
                  rw [hch2] at hrec
                  exact hrec.elim
              | ok p1 =>
                obtain ⟨leaf1, rest1, st1⟩ := p1
                rw [hch1] at hrec
                cases hch2 : parseNode (withFlag cfg true) text fuel restAfter
                    (some (if cfg.lowerCase then toLowerStr rawName else rawName)) false
                    (if cfg.preserveAttributes then
                      if ((attribScan attribsRaw).map
                          (fun p => (if cfg.lowerCase then toLowerStr p.1 else p.1,
                            decodeEntities p.2))).isEmpty then []
                      else [(cfg.attribsKey, JVal.obj (buildAttribs ((attribScan attribsRaw).map
                        (fun p => (if cfg.lowerCase then toLowerStr p.1 else p.1,
                          decodeEntities p.2)))))]
                    else buildAttribs ((attribScan attribsRaw).map
                      (fun p => (if cfg.lowerCase then toLowerStr p.1 else p.1,
                        decodeEntities p.2))))
                    { st with lastIndex := text.length - restAfter.length } with
                | err m2 st2' =>
                  rw [hch2] at hrec
                  exact hrec.elim
                | fuelOut =>
                  rw [hch2] at hrec
                  exact hrec.elim
                | ok p2 =>
                  obtain ⟨leaf2, rest2, st2⟩ := p2
                  rw [hch2] at hrec
                  obtain ⟨hbl, hse, hst, hsuf⟩ := hrec
                  subst hse
                  subst hst
                  dsimp only
                  by_cases hroot : isRoot = true
                  · rw [if_pos hroot, if_pos hroot]
                    exact ⟨@attachLeaf_rel (withFlag cfg false) (withFlag cfg true) rfl _ _ _
                      hb2 isRoot _ hnn _ _
                      (@collapseLeaf_rel (withFlag cfg false) (withFlag cfg true) rfl rfl rfl _ _
                        hbl), rfl, rfl, hsuf⟩
                  · rw [if_neg hroot, if_neg hroot]
                    exact ih _ _ _ _ _ _ hsuf
                      (@attachLeaf_rel (withFlag cfg false) (withFlag cfg true) rfl _ _ _
                        hb2 isRoot _ hnn _ _
                        (@collapseLeaf_rel (withFlag cfg false) (withFlag cfg true) rfl rfl rfl _ _
                          hbl))

theorem runXML_sim (opts : XMLOpts) (text : Str)
    (H : ¬ (mkCfg opts false).dataKey <:+: (if opts.lowerCase then toLowerStr text else text)) :
    match runXML false opts text, runXML true opts text with
    | .ok i1, .ok i2 =>
        LeafRel i1.tree i2.tree ∧ i1.errors = i2.errors ∧ i1.piNodeList = i2.piNodeList ∧
        i1.dtdNodeList = i2.dtdNodeList ∧ i1.documentNodeName = i2.documentNodeName
    | .thrown m1 st1, .thrown m2 st2 => m1 = m2 ∧ st1 = st2
    | .fuelOut, .fuelOut => True
    | _, _ => False := by
  unfold runXML
  by_cases hemp : text.isEmpty
  · rw [if_pos hemp, if_pos hemp]
    exact ⟨leafRel_refl _, rfl, rfl, rfl, rfl⟩
  · rw [if_neg hemp, if_neg hemp]
    have hsim := parseNode_sim (mkCfg opts false) text H (text.length + 1) text none true
      [] [] initPState (List.suffix_refl text) (branchRel_refl _ [])
    rw [show withFlag (mkCfg opts false) false = mkCfg opts false from rfl,
      show withFlag (mkCfg opts false) true = mkCfg opts true from rfl] at hsim
    cases h1 : parseNode (mkCfg opts false) text (text.length + 1) text none true
        [] initPState with
    | fuelOut =>
      rw [h1] at hsim
      cases h2 : parseNode (mkCfg opts true) text (text.length + 1) text none true
          [] initPState with
      | fuelOut => trivial
      | ok p2 => rw [h2] at hsim; exact hsim.elim
      | err m2 st2 => rw [h2] at hsim; exact hsim.elim
    | err m st =>
      rw [h1] at hsim
      cases h2 : parseNode (mkCfg opts true) text (text.length + 1) text none true
          [] initPState with
      | fuelOut => rw [h2] at hsim; exact hsim.elim
      | ok p2 => rw [h2] at hsim; exact hsim.elim
      | err m2 st2 =>
        rw [h2] at hsim
        exact hsim
    | ok p1 =>
      obtain ⟨tree1, s1, st1⟩ := p1
      rw [h1] at hsim
      cases h2 : parseNode (mkCfg opts true) text (text.length + 1) text none true
          [] initPState with
      | fuelOut => rw [h2] at hsim; exact hsim.elim
      | err m2 st2 => rw [h2] at hsim; exact hsim.elim
      | ok p2 =>
        obtain ⟨tree2, s2, st2⟩ := p2
        rw [h2] at hsim
        obtain ⟨⟨hm, hgdk⟩, hse, hst, hsuf⟩ := hsim
        subst hse
        subst hst
        dsimp only
        rw [show (mkCfg opts true).dataKey = (mkCfg opts false).dataKey from rfl]
        have hm1 := leafRelM_delV hm (mkCfg opts false).dataKey
        have hlen := leafRelM_length hm1
        rw [show numKeys (delV tree2 (mkCfg opts false).dataKey) =
          numKeys (delV tree1 (mkCfg opts false).dataKey) from hlen.symm]
        have hfk := leafRelM_firstKey hm1
        by_cases hgt : numKeys (delV tree1 (mkCfg opts false).dataKey) > 1
        · rw [if_pos hgt, if_pos hgt, show firstKey (delV tree2 (mkCfg opts false).dataKey) =
            firstKey (delV tree1 (mkCfg opts false).dataKey) from hfk.symm]
          exact ⟨rfl, rfl⟩
        · rw [if_neg hgt, if_neg hgt, show firstKey (delV tree2 (mkCfg opts false).dataKey) =
            firstKey (delV tree1 (mkCfg opts false).dataKey) from hfk.symm]
          cases hfk1 : firstKey (delV tree1 (mkCfg opts false).dataKey) with
          | none =>
            dsimp only
            exact ⟨.obj _ _ hm1, rfl, rfl, rfl, rfl⟩
          | some d =>
            dsimp only
            rw [show (mkCfg opts true).preserveDocumentNode =
              (mkCfg opts false).preserveDocumentNode from rfl]
            by_cases hdp : (d.isEmpty || (mkCfg opts false).preserveDocumentNode) = true
            · rw [if_pos hdp, if_pos hdp]
              exact ⟨.obj _ _ hm1, rfl, rfl, rfl, rfl⟩
            · rw [if_neg hdp, if_neg hdp]
              rcases leafRelM_getV hm1 d with ⟨g1, g2⟩ | ⟨v1, v2, g1, g2, gv⟩
              · rw [g1, g2]
                exact ⟨.str [], rfl, rfl, rfl, rfl⟩
              · rw [g1, g2]
                exact ⟨gv, rfl, rfl, rfl, rfl⟩

/-! ## Round-trip lemmas (C1 support) -/

theorem wsVal {c : Char} (h : isJsWs c = true) :
    c.val.toNat = 32 ∨ c.val.toNat = 9 ∨ c.val.toNat = 10 ∨ c.val.toNat = 13 ∨
    c.val.toNat = 11 ∨ c.val.toNat = 12 ∨ c.val.toNat = 160 ∨ c.val.toNat = 5760 ∨
    (8192 ≤ c.val.toNat ∧ c.val.toNat ≤ 8202) ∨ c.val.toNat = 8232 ∨
    c.val.toNat = 8233 ∨ c.val.toNat = 8239 ∨ c.val.toNat = 8287 ∨
    c.val.toNat = 12288 ∨ c.val.toNat = 65279 := by
  simp only [isJsWs, Bool.or_eq_true, decide_eq_true_eq, Bool.and_eq_true] at h
  rcases h with ((((((((((((((h|h)|h)|h)|h)|h)|h)|h)|⟨h1,h2⟩)|h)|h)|h)|h)|h)|h)
  · subst h; left; decide
  · subst h; right; left; decide
  · subst h; right; right; left; decide
  · subst h; right; right; right; left; decide
  · rw [h]; right; right; right; right; left; decide
  · rw [h]; right; right; right; right; right; left; decide
  · rw [h]; right; right; right; right; right; right; left; decide
  · rw [h]; right; right; right; right; right; right; right; left; decide
  · right; right; right; right; right; right; right; right; left; exact ⟨h1, h2⟩
  · rw [h]; right; right; right; right; right; right; right; right; right; left; decide
  · rw [h]
    right; right; right; right; right; right; right; right; right; right; left; decide
  · rw [h]
    right; right; right; right; right; right; right; right; right; right; right; left
    decide
  · rw [h]
    right; right; right; right; right; right; right; right; right; right; right; right
    left; decide
  · rw [h]
    right; right; right; right; right; right; right; right; right; right; right; right
    right; left; decide
  · rw [h]
    right; right; right; right; right; right; right; right; right; right; right; right
    right; right; decide

theorem nameVal {c : Char} (h : isNameChar c = true) :
    (65 ≤ c.val.toNat ∧ c.val.toNat ≤ 90) ∨ (97 ≤ c.val.toNat ∧ c.val.toNat ≤ 122) ∨
    (48 ≤ c.val.toNat ∧ c.val.toNat ≤ 57) ∨ c.val.toNat = 95 ∨ c.val.toNat = 45 ∨
    c.val.toNat = 58 ∨ c.val.toNat = 46 := by
  simp only [isNameChar, isWordChar, Char.isAlpha, Char.isUpper, Char.isLower,
    Char.isDigit, Bool.or_eq_true, decide_eq_true_eq, Bool.and_eq_true] at h
  rcases h with (((((⟨h1,h2⟩|⟨h1,h2⟩)|⟨h1,h2⟩)|h)|h)|h)|h
  · exact Or.inl ⟨h1, h2⟩
  · exact Or.inr (Or.inl ⟨h1, h2⟩)
  · exact Or.inr (Or.inr (Or.inl ⟨h1, h2⟩))
  · subst h; right; right; right; left; decide
  · subst h; right; right; right; right; left; decide
  · subst h; right; right; right; right; right; left; decide
  · subst h; right; right; right; right; right; right; decide

theorem nameChar_not_ws {c : Char} (h : isNameChar c = true) : isJsWs c = false := by
  cases hws : isJsWs c
  · rfl
  · exfalso
    have h1 := nameVal h
    have h2 := wsVal hws
    omega

theorem wordChar_nameChar {c : Char} (h : isWordChar c = true) : isNameChar c = true := by
  simp [isNameChar, h]

theorem nameChar_ne {c : Char} (h : isNameChar c = true) (d : Char)
    (hd : isNameChar d = false) : c ≠ d := by
  intro he
  rw [he, hd] at h
  cases h

theorem wordChar_ne {c : Char} (h : isWordChar c = true) (d : Char)
    (hd : isWordChar d = false) : c ≠ d := by
  intro he
  rw [he, hd] at h
  cases h

theorem takeWhile_all {p : Char → Bool} : ∀ {l : Str}, l.all p = true → l.takeWhile p = l := by
  intro l
  induction l with
  | nil => intro _; rfl
  | cons c r ih =>
    intro h
    simp only [List.all_cons, Bool.and_eq_true] at h
    rw [List.takeWhile_cons, if_pos h.1, ih h.2]

theorem dropWhile_all {p : Char → Bool} : ∀ {l : Str}, l.all p = true →
    l.dropWhile p = [] := by
  intro l
  induction l with
  | nil => intro _; rfl
  | cons c r ih =>
    intro h
    simp only [List.all_cons, Bool.and_eq_true] at h
    rw [List.dropWhile_cons, if_pos h.1, ih h.2]

theorem takeWhile_append_stop (p : Char → Bool) (c : Char) (t : Str) :
    ∀ (l : Str), l.all p = true → p c = false →
    (l ++ c :: t).takeWhile p = l ∧ (l ++ c :: t).dropWhile p = c :: t := by
  intro l
  induction l with
  | nil =>
    intro _ hc
    constructor
    · rw [List.nil_append, List.takeWhile_cons, if_neg (by simp [hc])]
    · rw [List.nil_append, List.dropWhile_cons, if_neg (by simp [hc])]
  | cons d r ih =>
    intro h hc
    simp only [List.all_cons, Bool.and_eq_true] at h
    obtain ⟨h1, h2⟩ := ih h.2 hc
    constructor
    · rw [List.cons_append, List.takeWhile_cons, if_pos h.1, h1]
    · rw [List.cons_append, List.dropWhile_cons, if_pos h.1, h2]

theorem validTagName_parts {k : Str} (h : validTagName k = true) :
    ∃ c rest, k = c :: rest ∧ isWordChar c = true ∧ rest.all isNameChar = true := by
  cases k with
  | nil => cases h
  | cons c rest =>
    simp only [validTagName, Bool.and_eq_true] at h
    exact ⟨c, rest, rfl, h.1, h.2⟩

theorem validTagName_all {k : Str} (h : validTagName k = true) :
    k.all isNameChar = true := by
  obtain ⟨c, rest, hk, hc, hrest⟩ := validTagName_parts h
  subst hk
  simp [List.all_cons, wordChar_nameChar hc, hrest]

theorem validTagName_ne_nil {k : Str} (h : validTagName k = true) : k ≠ [] := by
  intro he
  rw [he] at h
  cases h

theorem name_not_mem {k : Str} (h : k.all isNameChar = true) {d : Char}
    (hd : isNameChar d = false) : d ∉ k := by
  intro hm
  rw [List.all_eq_true] at h
  have := h d hm
  rw [hd] at this
  cases this

theorem stripWs_name {k : Str} (h : validTagName k = true) : stripWs k = k := by
  obtain ⟨c, rest, hk, hc, hrest⟩ := validTagName_parts h
  subst hk
  unfold stripWs
  rw [List.dropWhile_cons, if_neg (by simp [nameChar_not_ws (wordChar_nameChar hc)])]

theorem nextClose_concat (body rest : Str) (hb : '>' ∉ body) :
    nextClose (body ++ '>' :: rest) = some (body, rest) := by
  unfold nextClose
  have hall : body.all (fun c => decide (c ≠ '>')) = true := by
    rw [List.all_eq_true]
    intro c hc
    simp only [decide_eq_true_eq]
    intro he
    exact hb (he ▸ hc)
  obtain ⟨ht, hd⟩ := takeWhile_append_stop (fun c => decide (c ≠ '>')) '>' rest body
    hall (by simp)
  rw [hd, ht]
  rfl

theorem nextTagGo_concat (body rest : Str) (hb : '>' ∉ body) (hne : body ≠ []) :
    ∀ (a : Str) (acc : Str), '<' ∉ a →
    nextTagGo acc (a ++ '<' :: (body ++ '>' :: rest)) = some (acc.reverse ++ a, body, rest) := by
  intro a
  induction a with
  | nil =>
    intro acc _
    rw [List.nil_append, nextTagGo, if_pos rfl, nextClose_concat body rest hb]
    dsimp only
    rw [if_neg (by simpa [List.isEmpty_iff] using hne)]
    rw [List.append_nil]
  | cons c a' ih =>
    intro acc hlt
    rw [List.cons_append, nextTagGo,
      if_neg (by intro he; exact hlt (he ▸ List.mem_cons_self c a'))]
    rw [ih (c :: acc) (fun hm => hlt (List.mem_cons_of_mem c hm))]
    simp

theorem nextTagS_concat (body a rest : Str) (ha : '<' ∉ a) (hb : '>' ∉ body)
    (hne : body ≠ []) :
    nextTagS (a ++ '<' :: (body ++ '>' :: rest)) = some (a, body, rest) := by
  unfold nextTagS
  rw [nextTagGo_concat body rest hb hne a [] ha]
  rfl

theorem isSpecialTag_open {k : Str} (h : validTagName k = true) :
    isSpecialTag k = false := by
  obtain ⟨c, r, hk, hc, hr⟩ := validTagName_parts h
  unfold isSpecialTag
  rw [stripWs_name h, hk]
  have h1 : c ≠ '!' := wordChar_ne hc '!' (by decide)
  have h2 : c ≠ '?' := wordChar_ne hc '?' (by decide)
  split
  · rename_i heq
    injection heq with hh _
    exact absurd hh h1
  · rename_i heq
    injection heq with hh _
    exact absurd hh h2
  · rfl

theorem parseStandardTag_open {k : Str} (h : validTagName k = true) :
    parseStandardTag k = some (false, k, []) := by
  obtain ⟨c, r, hk, hc, hr⟩ := validTagName_parts h
  unfold parseStandardTag
  rw [stripWs_name h, hk]
  have hcs : c ≠ '/' := wordChar_ne hc '/' (by decide)
  have hall : (c :: r).all isNameChar = true := by
    rw [← hk]
    exact validTagName_all h
  split
  · rename_i r2 heq
    injection heq with hh _
    exact absurd hh hcs
  · dsimp only
    rw [takeWhile_all hall]
    rw [if_neg (by simp [List.isEmpty_iff])]
    rw [dropWhile_all hall]
    rw [← hk]
    rfl

theorem stripWs_close (k : Str) : stripWs ('/' :: k) = '/' :: k := by
  unfold stripWs
  rw [List.dropWhile_cons, if_neg (by decide)]

theorem isSpecialTag_close (k : Str) : isSpecialTag ('/' :: k) = false := rfl

theorem parseStandardTag_close {k : Str} (h : validTagName k = true) :
    parseStandardTag ('/' :: k) = some (true, k, []) := by
  have hall := validTagName_all h
  have hred : parseStandardTag ('/' :: k) =
      (let name := List.takeWhile isNameChar k;
       if name.isEmpty = true then none
       else some (true, name, stripWs (List.dropWhile isNameChar k))) := rfl
  rw [hred]
  dsimp only
  rw [takeWhile_all hall, dropWhile_all hall,
    if_neg (by simp [List.isEmpty_iff]; exact validTagName_ne_nil h)]
  rfl

theorem isSpecialTag_selfclose {k : Str} (h : validTagName k = true) :
    isSpecialTag (k ++ ['/']) = false := by
  obtain ⟨c, r, hk, hc, hr⟩ := validTagName_parts h
  unfold isSpecialTag
  have hstrip : stripWs (k ++ ['/']) = k ++ ['/'] := by
    unfold stripWs
    rw [hk, List.cons_append, List.dropWhile_cons,
      if_neg (by simp [nameChar_not_ws (wordChar_nameChar hc)])]
  rw [hstrip, hk, List.cons_append]
  have h1 : c ≠ '!' := wordChar_ne hc '!' (by decide)
  have h2 : c ≠ '?' := wordChar_ne hc '?' (by decide)
  split
  · rename_i heq
    injection heq with hh _
    exact absurd hh h1
  · rename_i heq
    injection heq with hh _
    exact absurd hh h2
  · rfl

theorem parseStandardTag_selfclose {k : Str} (h : validTagName k = true) :
    parseStandardTag (k ++ ['/']) = some (false, k, ['/']) := by
  obtain ⟨c, r, hk, hc, hr⟩ := validTagName_parts h
  unfold parseStandardTag
  have hstrip : stripWs (k ++ ['/']) = k ++ ['/'] := by
    unfold stripWs
    rw [hk, List.cons_append, List.dropWhile_cons,
      if_neg (by simp [nameChar_not_ws (wordChar_nameChar hc)])]
  rw [hstrip]
  have hall := validTagName_all h
  obtain ⟨ht, hd⟩ := takeWhile_append_stop isNameChar '/' [] k hall (by decide)
  have hcs : c ≠ '/' := wordChar_ne hc '/' (by decide)
  split
  · rename_i r2 heq
    rw [hk, List.cons_append] at heq
    injection heq with hh _
    exact absurd hh hcs
  · dsimp only
    rw [show k ++ ['/'] = k ++ '/' :: ([] : Str) from rfl, ht, hd,
      if_neg (by simp [List.isEmpty_iff]; exact validTagName_ne_nil h)]
    rfl

theorem decode_encode (v : Str) : decodeEntities (encodeEntities v) = v := by
  rw [encode_cmap]
  exact decode_encode_tbl3 v

theorem mem_cmap {f : Char → Str} {s : Str} {d : Char} (h : d ∈ cmap f s) :
    ∃ c ∈ s, d ∈ f c := by
  unfold cmap at h
  rw [List.mem_flatten] at h
  obtain ⟨l, hl, hd⟩ := h
  rw [List.mem_map] at hl
  obtain ⟨c, hc, hcl⟩ := hl
  exact ⟨c, hc, hcl ▸ hd⟩

theorem mem_cmap_intro {f : Char → Str} {s : Str} {c d : Char} (hc : c ∈ s)
    (hd : d ∈ f c) : d ∈ cmap f s := by
  unfold cmap
  rw [List.mem_flatten]
  exact ⟨f c, List.mem_map_of_mem f hc, hd⟩

theorem tbl3_find_none {c : Char} (h1 : c ≠ '&') (h2 : c ≠ '<') (h3 : c ≠ '>')
    (h4 : c ≠ '"') (h5 : c ≠ '\'') : tbl3.find? (·.1 == c) = none := by
  rw [List.find?_eq_none]
  intro x hx
  have hkeys : ∀ y : Char × Str, y ∈ tbl3 →
      y.1 = '&' ∨ y.1 = '<' ∨ y.1 = '>' ∨ y.1 = '"' ∨ y.1 = '\'' := by decide
  have hk := hkeys x hx
  intro he0
  have he : x.1 = c := by simpa using he0
  rw [he] at hk
  rcases hk with h|h|h|h|h
  · exact h1 h
  · exact h2 h
  · exact h3 h
  · exact h4 h
  · exact h5 h

theorem tbl3_no_angle (c : Char) : '<' ∉ tblMap tbl3 c ∧ '>' ∉ tblMap tbl3 c := by
  by_cases h1 : c = '&'
  · subst h1; decide
  by_cases h2 : c = '<'
  · subst h2; decide
  by_cases h3 : c = '>'
  · subst h3; decide
  by_cases h4 : c = '"'
  · subst h4; decide
  by_cases h5 : c = '\''
  · subst h5; decide
  unfold tblMap
  rw [tbl3_find_none h1 h2 h3 h4 h5]
  constructor
  · simp
    exact fun he => h2 he.symm
  · simp
    exact fun he => h3 he.symm

theorem enc_no_lt (v : Str) : '<' ∉ encodeEntities v := by
  rw [encode_cmap]
  intro hm
  obtain ⟨c, _, hd⟩ := mem_cmap hm
  exact (tbl3_no_angle c).1 hd

theorem enc_no_gt (v : Str) : '>' ∉ encodeEntities v := by
  rw [encode_cmap]
  intro hm
  obtain ⟨c, _, hd⟩ := mem_cmap hm
  exact (tbl3_no_angle c).2 hd

theorem enc_nonws {v : Str} (h : v.any (fun c => !isJsWs c) = true) :
    (encodeEntities v).any (fun c => !isJsWs c) = true := by
  rw [encode_cmap]
  rw [List.any_eq_true] at h ⊢
  obtain ⟨c, hc, hcw⟩ := h
  by_cases h1 : c = '&'
  · exact ⟨'&', mem_cmap_intro (h1 ▸ hc) (by decide), by decide⟩
  by_cases h2 : c = '<'
  · exact ⟨'&', mem_cmap_intro (h2 ▸ hc) (by decide), by decide⟩
  by_cases h3 : c = '>'
  · exact ⟨'&', mem_cmap_intro (h3 ▸ hc) (by decide), by decide⟩
  by_cases h4 : c = '"'
  · exact ⟨c, mem_cmap_intro hc (by rw [h4]; decide), hcw⟩
  by_cases h5 : c = '\''
  · exact ⟨c, mem_cmap_intro hc (by rw [h5]; decide), hcw⟩
  refine ⟨c, mem_cmap_intro hc ?_, hcw⟩
  unfold tblMap
  rw [tbl3_find_none h1 h2 h3 h4 h5]
  exact List.mem_singleton.mpr rfl

theorem trim_any {v : Str} (ht : trim v = v) (hne : v ≠ []) :
    v.any (fun c => !isJsWs c) = true := by
  by_contra h
  have hall : v.all isJsWs = true := by
    rw [List.all_eq_true]
    intro c hc
    by_contra hcw
    exact h (List.any_eq_true.mpr ⟨c, hc, by simpa using hcw⟩)
  have hdrop : v.dropWhile isJsWs = [] := dropWhile_all hall
  unfold trim at ht
  rw [hdrop] at ht
  simp at ht
  exact hne ht

theorem getV_append_none {b1 : JObj} {k : Str} (b2 : JObj) (h : getV b1 k = none) :
    getV (b1 ++ b2) k = getV b2 k := by
  induction b1 with
  | nil => rfl
  | cons p ps ih =>
    rw [getV_cons] at h
    rw [List.cons_append, getV_cons]
    by_cases hp : p.1 == k
    · rw [if_pos hp] at h
      cases h
    · rw [if_neg hp] at h ⊢
      exact ih h

theorem setV_append {b : JObj} {k : Str} (v : JVal) (h : getV b k = none) :
    setV b k v = b ++ [(k, v)] := by
  induction b with
  | nil => rfl
  | cons p ps ih =>
    rw [getV_cons] at h
    by_cases hp : p.1 == k
    · rw [if_pos hp] at h
      cases h
    · rw [if_neg hp] at h
      rw [setV]
      rw [show (p.1, p.2) = p from rfl, if_neg hp, ih h, List.cons_append]

theorem getV_not_mem_keys {b : JObj} {k : Str} (h : k ∉ b.map (fun p => p.1)) :
    getV b k = none := by
  induction b with
  | nil => rfl
  | cons p ps ih =>
    rw [List.map_cons] at h
    rw [getV_cons, if_neg ?_]
    · exact ih (fun hm => h (List.mem_cons_of_mem _ hm))
    · simp only [beq_eq_false_iff_ne, ne_eq, Bool.not_eq_true]
      intro he
      exact h (he ▸ List.mem_cons_self p.1 _)

theorem getV_entries {ms : List (Str × Str)} :
    (ms.map (fun p => p.1)).Nodup →
    ∀ p ∈ ms, getV (ms.map (fun q => (q.1, JVal.str q.2))) p.1 = some (.str p.2) := by
  induction ms with
  | nil => intro _ p hp; cases hp
  | cons q ms ih =>
    intro hnd p hp
    rw [List.map_cons, List.nodup_cons] at hnd
    rw [List.map_cons, getV_cons]
    rcases List.mem_cons.mp hp with he | hm
    · subst he
      rw [if_pos (by simp)]
    · rw [if_neg ?_]
      · exact ih hnd.2 p hm
      · simp only [beq_eq_false_iff_ne, ne_eq, Bool.not_eq_true]
        intro he
        exact hnd.1 (he ▸ List.mem_map_of_mem (fun p => p.1) hm)

theorem map_keys_entries (ms : List (Str × Str)) :
    (ms.map (fun q => (q.1, JVal.str q.2))).map (fun p => p.1) = ms.map (fun p => p.1) := by
  rw [List.map_map]
  rfl

theorem jsizeM_entries (ms : List (Str × Str)) :
    jsizeM (ms.map (fun q => (q.1, JVal.str q.2))) = ms.length := by
  induction ms with
  | nil => rfl
  | cons p ps ih =>
    rw [List.map_cons, jsizeM, ih, List.length_cons]
    rw [show jsize (p.1, JVal.str p.2).2 = 1 from rfl]
    omega

theorem foldl_guard {α : Type} (g : α → Bool) (f : α → Str) :
    ∀ (l : List α) (a : Str), (∀ k ∈ l, g k = true) →
    l.foldl (fun acc k => if g k then acc ++ f k else acc) a = a ++ (l.map f).flatten := by
  intro l
  induction l with
  | nil => intro a _; simp
  | cons x xs ih =>
    intro a hg
    rw [List.foldl_cons, if_pos (hg x (List.mem_cons_self x xs)), List.map_cons,
      List.flatten_cons, ih (a ++ f x) (fun k hk => hg k (List.mem_cons_of_mem x hk))]
    rw [List.append_assoc]

theorem stringify_str_child (k v : Str) (f : Nat) (hf : 1 ≤ f) :
    stringifyF f (some (.str v)) (some k) 1 ['\t'] ['\n'] true =
      '\t' :: '<' :: (k ++ '>' :: (encodeEntities v ++ ("</").toList ++ k ++ '>' :: ['\n'])) := by
  cases f with
  | zero => omega
  | succ f => rfl

theorem jsize_rtTree (r : Str) (ms : List (Str × Str)) :
    jsize (rtTree r ms) = ms.length + 2 := by
  unfold rtTree
  rw [jsize, jsizeM, jsize, jsizeM]
  rw [jsizeM_entries]
  omega

theorem stringifyTop_flat (r : Str) (ms : List (Str × Str))
    (hnd : (ms.map (fun p => p.1)).Nodup)
    (hk : ∀ p ∈ ms, validTagName p.1 = true ∧ p.1 ≠ ("_Attribs").toList ∧
      p.1 ≠ ("_Data").toList)
    (hsort : sortKeys (ms.map (fun p => p.1)) = ms.map (fun p => p.1))
    (hne : ms ≠ []) :
    stringifyTop (rtTree r ms) =
      xmlHeaderStr ++ '\n' :: '<' :: (r ++ '>' :: '\n' :: (rtChildText ms ++
        '<' :: '/' :: (r ++ '>' :: ['\n']))) := by
  unfold stringifyTop stringify
  rw [jsize_rtTree]
  rw [show ms.length + 2 = Nat.succ (ms.length + 1) from rfl]
  rw [stringifyF]
  rw [if_pos (rfl : (0 : Nat) = 0)]
  rw [show nameFalsy none = true from rfl]
  rw [if_pos (rfl : true = true)]
  rw [show jsFirstKeyO (some (rtTree r ms)) = some r from rfl]
  dsimp only [nameStr, Option.bind]
  rw [show jsGetV (rtTree r ms) r =
    some (JVal.obj (ms.map (fun q => (q.1, JVal.str q.2)))) from by
      show getV [(r, JVal.obj (ms.map (fun q => (q.1, JVal.str q.2))))] r =
        some (JVal.obj (ms.map (fun q => (q.1, JVal.str q.2))))
      rw [getV_cons]
      dsimp only
      rw [if_pos (by simp : (r == r) = true)]]
  dsimp only
  simp only [Nat.zero_add]
  have hav : getV (ms.map (fun q => (q.1, JVal.str q.2))) (("_Attribs").toList) = none := by
    apply getV_not_mem_keys
    rw [map_keys_entries]
    intro hm
    rw [List.mem_map] at hm
    obtain ⟨p, hp, heq⟩ := hm
    exact (hk p hp).2.1 heq
  have hdat : getV (ms.map (fun q => (q.1, JVal.str q.2))) (("_Data").toList) = none := by
    apply getV_not_mem_keys
    rw [map_keys_entries]
    intro hm
    rw [List.mem_map] at hm
    obtain ⟨p, hp, heq⟩ := hm
    exact (hk p hp).2.2 heq
  rw [hav, hdat]
  rw [show numKeys (List.map (fun q => (q.1, JVal.str q.2)) ms) = ms.length from by
    unfold numKeys; rw [List.length_map]]
  rw [if_neg (by simp : ¬ ((none : Option JVal).isSome = true))]
  rw [if_pos (by
    simp only [gt_iff_lt, List.length_pos]
    exact hne)]
  rw [if_neg (by decide : ¬ (truthyO none = true))]
  dsimp only
  rw [if_pos trivial]
  rw [map_keys_entries, hsort]
  rw [foldl_guard (fun k => (!(k == ("_Attribs").toList) && validTagName k))
    (fun k => stringifyF (ms.length + 1)
      (jsGetV (JVal.obj (List.map (fun q => (q.1, JVal.str q.2)) ms)) k)
      (some k) 1 ['\t'] ['\n'] true)
    (ms.map (fun p => p.1)) [] ?hg]
  case hg =>
    intro k hkm
    rw [List.mem_map] at hkm
    obtain ⟨p, hp, heq⟩ := hkm
    subst heq
    rw [Bool.and_eq_true, (hk p hp).1]
    refine ⟨?_, rfl⟩
    simp only [Bool.not_eq_true']
    simp only [beq_eq_false_iff_ne, ne_eq]
    exact (hk p hp).2.1
  have hmap : List.map (fun k => stringifyF (ms.length + 1)
      (jsGetV (JVal.obj (List.map (fun q => (q.1, JVal.str q.2)) ms)) k)
      (some k) 1 ['\t'] ['\n'] true) (ms.map (fun p => p.1)) =
      ms.map (fun p => '\t' :: '<' :: (p.1 ++ '>' :: (encodeEntities p.2 ++
        ("</").toList ++ p.1 ++ '>' :: ['\n']))) := by
    rw [List.map_map]
    apply List.map_congr_left
    intro p hp
    dsimp only [Function.comp]
    have hget : jsGetV (JVal.obj (List.map (fun q => (q.1, JVal.str q.2)) ms)) p.1 =
        some (JVal.str p.2) := by
      show getV (List.map (fun q => (q.1, JVal.str q.2)) ms) p.1 = some (JVal.str p.2)
      exact getV_entries hnd p hp
    rw [hget]
    exact stringify_str_child p.1 p.2 (ms.length + 1) (by omega)
  rw [hmap]
  unfold rtChildText
  simp [List.append_assoc]

theorem stringifyTop_flat_nil (r : Str) :
    stringifyTop (rtTree r []) =
      xmlHeaderStr ++ '\n' :: '<' :: (r ++ '/' :: '>' :: ['\n']) := by
  unfold stringifyTop stringify
  rw [jsize_rtTree]
  rw [show (List.length ([] : List (Str × Str))) + 2 = Nat.succ 1 from rfl]
  rw [stringifyF]
  rw [if_pos (rfl : (0 : Nat) = 0)]
  rw [show nameFalsy none = true from rfl]
  rw [if_pos (rfl : true = true)]
  rw [show jsFirstKeyO (some (rtTree r [])) = some r from rfl]
  dsimp only [nameStr, Option.bind]
  rw [show jsGetV (rtTree r []) r = some (JVal.obj []) from by
      show getV [(r, JVal.obj [])] r = some (JVal.obj [])
      rw [getV_cons]
      dsimp only
      rw [if_pos (by simp : (r == r) = true)]]
  dsimp only
  rw [if_neg (by decide : ¬ (numKeys ([] : JObj) > if (getV ([] : JObj)
    (("_Attribs").toList)).isSome = true then 1 else 0))]
  simp [List.append_assoc]
  rfl

theorem all_not_mem {p : Char → Bool} {l : Str} (h : l.all p = true) {d : Char}
    (hd : p d = false) : d ∉ l := by
  intro hm
  rw [List.all_eq_true] at h
  have := h d hm
  rw [hd] at this
  cases this

theorem all_no_any {p : Char → Bool} {l : Str} (h : l.all p = true) :
    l.any (fun c => !p c) = false := by
  rw [List.any_eq_false]
  intro c hc
  rw [List.all_eq_true] at h
  simp [h c hc]

theorem gt_not_in_name {k : Str} (h : validTagName k = true) : '>' ∉ k :=
  all_not_mem (validTagName_all h) (by decide)

theorem child_inner (text k v rest : Str) (st : PState)
    (hk : validTagName k = true)
    (hv1 : trim v = v) (hv2 : v ≠ []) (fuel : Nat)
    (hfuel : (encodeEntities v ++ '<' :: '/' :: (k ++ '>' :: rest)).length < fuel) :
    parseNode crt text fuel (encodeEntities v ++ '<' :: '/' :: (k ++ '>' :: rest))
      (some k) false [] st =
      .ok ([(("_Data").toList, JVal.str v)], rest,
        { st with lastIndex := text.length - rest.length }) := by
  cases fuel with
  | zero => omega
  | succ fuel =>
    rw [show parseNode crt text (fuel + 1) (encodeEntities v ++ '<' :: '/' :: (k ++ '>' :: rest))
        (some k) false [] st =
      parseNodeStep crt text (parseNode crt text fuel)
        (encodeEntities v ++ '<' :: '/' :: (k ++ '>' :: rest)) (some k) false [] st from rfl]
    rw [parseNodeStep.eq_def]
    have hnt : nextTagS (encodeEntities v ++ '<' :: '/' :: (k ++ '>' :: rest)) =
        some (encodeEntities v, '/' :: k, rest) := by
      rw [show (encodeEntities v ++ '<' :: '/' :: (k ++ '>' :: rest) : Str) =
        encodeEntities v ++ '<' :: (('/' :: k) ++ '>' :: rest) from rfl]
      refine nextTagS_concat ('/' :: k) (encodeEntities v) rest (enc_no_lt v) ?_ (by simp)
      intro hm
      rcases List.mem_cons.mp hm with he | hm2
      · cases he
      · exact gt_not_in_name hk hm2
    rw [hnt]
    dsimp only
    rw [if_pos (enc_nonws (trim_any hv1 hv2))]
    have hda : dataAppend crt [] (encodeEntities v) = [(("_Data").toList, JVal.str v)] := by
      unfold dataAppend
      rw [if_neg (by decide : ¬ (crt.preserveWhitespace = true))]
      rw [decode_encode, hv1]
      rfl
    rw [hda]
    rw [isSpecialTag_close k]
    rw [if_neg (by decide : ¬ (false = true))]
    rw [parseStandardTag_close hk]
    dsimp only
    rw [show crt.lowerCase = false from rfl]
    rw [if_neg (by decide : ¬ (false = true))]
    rw [if_pos (rfl : true = true)]
    rw [if_pos (by simp : ((k : Str) == (some k).getD []) = true)]

theorem child_loop (text r : Str) (hr : validTagName r = true) :
    ∀ (ms : List (Str × Str)) (fuel : Nat) (ws : Str) (branch : JObj) (st : PState),
    (∀ p ∈ ms, validTagName p.1 = true ∧ trim p.2 = p.2 ∧ p.2 ≠ [] ∧
      getV branch p.1 = none) →
    (ms.map (fun p => p.1)).Nodup →
    ws.all isJsWs = true →
    (ws ++ rtChildText ms ++ '<' :: '/' :: (r ++ '>' :: ['\n'])).length < fuel →
    parseNode crt text fuel (ws ++ rtChildText ms ++ '<' :: '/' :: (r ++ '>' :: ['\n']))
      (some r) false branch st =
      .ok (branch ++ ms.map (fun p => (p.1, JVal.str p.2)), ['\n'],
        { st with lastIndex := text.length - 1 }) := by
  intro ms
  induction ms with
  | nil =>
    intro fuel ws branch st hms hnd hws hfuel
    rw [show rtChildText [] = ([] : Str) from rfl] at hfuel ⊢
    rw [List.append_nil] at hfuel ⊢
    cases fuel with
    | zero => exact absurd hfuel (by omega)
    | succ fuel =>
      rw [show parseNode crt text (fuel + 1) (ws ++ '<' :: '/' :: (r ++ '>' :: ['\n']))
          (some r) false branch st =
        parseNodeStep crt text (parseNode crt text fuel)
          (ws ++ '<' :: '/' :: (r ++ '>' :: ['\n'])) (some r) false branch st from rfl]
      rw [parseNodeStep.eq_def]
      have hnt : nextTagS (ws ++ '<' :: '/' :: (r ++ '>' :: ['\n'])) =
          some (ws, '/' :: r, ['\n']) := by
        rw [show (ws ++ '<' :: '/' :: (r ++ '>' :: ['\n']) : Str) =
          ws ++ '<' :: (('/' :: r) ++ '>' :: ['\n']) from rfl]
        refine nextTagS_concat ('/' :: r) ws ['\n'] (all_not_mem hws (by decide)) ?_ (by simp)
        intro hm
        rcases List.mem_cons.mp hm with he | hm2
        · cases he
        · exact gt_not_in_name hr hm2
      rw [hnt]
      dsimp only
      rw [all_no_any hws]
      rw [if_neg (by decide : ¬ (false = true))]
      rw [isSpecialTag_close r]
      rw [if_neg (by decide : ¬ (false = true))]
      rw [parseStandardTag_close hr]
      dsimp only
      rw [show crt.lowerCase = false from rfl]
      rw [if_neg (by decide : ¬ (false = true))]
      rw [if_pos (rfl : true = true)]
      rw [if_pos (by simp : ((r : Str) == (some r).getD []) = true)]
      simp
  | cons p ms ih =>
    intro fuel ws branch st hms hnd hws hfuel
    have hpm := hms p (List.mem_cons_self p ms)
    have hshape : ws ++ rtChildText (p :: ms) ++ '<' :: '/' :: (r ++ '>' :: ['\n']) =
        (ws ++ ['\t']) ++ '<' :: (p.1 ++ '>' ::
          (encodeEntities p.2 ++ '<' :: '/' :: (p.1 ++ '>' ::
            ('\n' :: (rtChildText ms ++ '<' :: '/' :: (r ++ '>' :: ['\n'])))))) := by
      unfold rtChildText
      simp [List.append_assoc]
    rw [hshape] at hfuel ⊢
    cases fuel with
    | zero => exact absurd hfuel (by omega)
    | succ fuel =>
      rw [show parseNode crt text (fuel + 1) ((ws ++ ['\t']) ++ '<' :: (p.1 ++ '>' ::
          (encodeEntities p.2 ++ '<' :: '/' :: (p.1 ++ '>' ::
            ('\n' :: (rtChildText ms ++ '<' :: '/' :: (r ++ '>' :: ['\n'])))))))
          (some r) false branch st =
        parseNodeStep crt text (parseNode crt text fuel)
          ((ws ++ ['\t']) ++ '<' :: (p.1 ++ '>' ::
          (encodeEntities p.2 ++ '<' :: '/' :: (p.1 ++ '>' ::
            ('\n' :: (rtChildText ms ++ '<' :: '/' :: (r ++ '>' :: ['\n'])))))))
          (some r) false branch st from rfl]
      rw [parseNodeStep.eq_def]
      have hnt : nextTagS ((ws ++ ['\t']) ++ '<' :: (p.1 ++ '>' ::
          (encodeEntities p.2 ++ '<' :: '/' :: (p.1 ++ '>' ::
            ('\n' :: (rtChildText ms ++ '<' :: '/' :: (r ++ '>' :: ['\n']))))))) =
          some (ws ++ ['\t'], p.1,
            encodeEntities p.2 ++ '<' :: '/' :: (p.1 ++ '>' ::
              ('\n' :: (rtChildText ms ++ '<' :: '/' :: (r ++ '>' :: ['\n']))))) := by
        refine nextTagS_concat p.1 (ws ++ ['\t']) _ ?_ (gt_not_in_name hpm.1)
          (validTagName_ne_nil hpm.1)
        intro hm
        rcases List.mem_append.mp hm with h1 | h1
        · exact all_not_mem hws (by decide) h1
        · simp at h1
      rw [hnt]
      dsimp only
      have hwst : (ws ++ ['\t']).all isJsWs = true := by
        rw [List.all_append]
        simp [hws]
        decide
      rw [all_no_any hwst]
      rw [isSpecialTag_open hpm.1, parseStandardTag_open hpm.1]
      simp only [Bool.false_eq_true, if_false]
      simp only [show crt.lowerCase = false from rfl,
        show crt.preserveAttributes = false from rfl,
        show selfClosingCheck ([] : Str) = false from rfl,
        show attribScan ([] : Str) = [] from rfl, List.map_nil,
        show buildAttribs [] = ([] : JObj) from rfl, Bool.false_eq_true, if_false]
      rw [child_inner text p.1 p.2
        ('\n' :: (rtChildText ms ++ '<' :: '/' :: (r ++ '>' :: ['\n'])))
        { st with lastIndex := text.length -
          (encodeEntities p.2 ++ '<' :: '/' :: (p.1 ++ '>' ::
            ('\n' :: (rtChildText ms ++ '<' :: '/' :: (r ++ '>' :: ['\n']))))).length }
        hpm.1 hpm.2.1 hpm.2.2.1 fuel (by
          simp only [List.length_append, List.length_cons] at hfuel ⊢
          omega)]
      dsimp only
      have hcol : collapseLeaf crt [(("_Data").toList, JVal.str p.2)] = JVal.str p.2 := by
        unfold collapseLeaf
        rw [getV_cons]
        dsimp only
        rw [if_pos (by decide : ((("_Data").toList : Str) == crt.dataKey) = true)]
        dsimp only
        have h1 : numKeys [(("_Data").toList, JVal.str p.2)] = 1 := rfl
        rw [if_pos h1]
      rw [hcol]
      have hatt : attachLeaf crt false branch p.1 (JVal.str p.2) =
          branch ++ [(p.1, JVal.str p.2)] := by
        unfold attachLeaf
        rw [hpm.2.2.2]
        rw [show (crt.forceArrays && !false) = false from rfl]
        rw [if_neg (by decide : ¬ (false = true))]
        exact setV_append _ hpm.2.2.2
      rw [hatt]
      rw [show ('\n' :: (rtChildText ms ++ '<' :: '/' :: (r ++ '>' :: ['\n'])) : Str) =
        ['\n'] ++ rtChildText ms ++ '<' :: '/' :: (r ++ '>' :: ['\n']) from rfl]
      rw [ih fuel ['\n'] (branch ++ [(p.1, JVal.str p.2)]) _ ?_ ?_ (by decide) (by
        simp only [List.length_append, List.length_cons] at hfuel ⊢
        omega)]
      · simp [List.append_assoc]
      · intro q hq
        have hqm := hms q (List.mem_cons_of_mem p hq)
        refine ⟨hqm.1, hqm.2.1, hqm.2.2.1, ?_⟩
        rw [getV_append_none _ hqm.2.2.2, getV_cons]
        dsimp only
        rw [if_neg ?_]
        · rfl
        · simp only [beq_eq_false_iff_ne, ne_eq, Bool.not_eq_true]
          intro he
          rw [List.map_cons, List.nodup_cons] at hnd
          exact hnd.1 (he ▸ List.mem_map_of_mem (fun p => p.1) hq)
      · rw [List.map_cons, List.nodup_cons] at hnd
        exact hnd.2

theorem root_step (text r : Str) (hr : validTagName r = true)
    (ms : List (Str × Str))
    (hms : ∀ p ∈ ms, validTagName p.1 = true ∧ trim p.2 = p.2 ∧ p.2 ≠ [])
    (hnd : (ms.map (fun p => p.1)).Nodup)
    (hdk : ∀ p ∈ ms, p.1 ≠ ("_Data").toList) :
    ∀ (fuel : Nat) (st : PState),
    ('\n' :: ('<' :: (r ++ '>' :: '\n' ::
      (rtChildText ms ++ '<' :: '/' :: (r ++ '>' :: ['\n']))))).length < fuel →
    parseNode crt text fuel
      ('\n' :: ('<' :: (r ++ '>' :: '\n' ::
        (rtChildText ms ++ '<' :: '/' :: (r ++ '>' :: ['\n'])))))
      none true [] st =
      .ok ([(r, JVal.obj (ms.map (fun p => (p.1, JVal.str p.2))))], ['\n'],
        { st with lastIndex := text.length - 1 }) := by
  intro fuel st hfuel
  cases fuel with
  | zero => exact absurd hfuel (by omega)
  | succ fuel =>
    rw [show parseNode crt text (fuel + 1)
        ('\n' :: ('<' :: (r ++ '>' :: '\n' ::
          (rtChildText ms ++ '<' :: '/' :: (r ++ '>' :: ['\n'])))))
        none true [] st =
      parseNodeStep crt text (parseNode crt text fuel)
        ('\n' :: ('<' :: (r ++ '>' :: '\n' ::
          (rtChildText ms ++ '<' :: '/' :: (r ++ '>' :: ['\n'])))))
        none true [] st from rfl]
    rw [parseNodeStep.eq_def]
    have hnt : nextTagS ('\n' :: ('<' :: (r ++ '>' :: '\n' ::
        (rtChildText ms ++ '<' :: '/' :: (r ++ '>' :: ['\n']))))) =
        some (['\n'], r, '\n' :: (rtChildText ms ++ '<' :: '/' :: (r ++ '>' :: ['\n']))) := by
      rw [show ('\n' :: ('<' :: (r ++ '>' :: '\n' ::
          (rtChildText ms ++ '<' :: '/' :: (r ++ '>' :: ['\n'])))) : Str) =
        ['\n'] ++ '<' :: (r ++ '>' ::
          ('\n' :: (rtChildText ms ++ '<' :: '/' :: (r ++ '>' :: ['\n'])))) from rfl]
      exact nextTagS_concat r ['\n'] _ (by decide) (gt_not_in_name hr) (validTagName_ne_nil hr)
    rw [hnt]
    dsimp only
    rw [all_no_any (show (['\n'] : Str).all isJsWs = true from by decide)]
    rw [isSpecialTag_open hr, parseStandardTag_open hr]
    simp only [Bool.false_eq_true, if_false]
    simp only [show crt.lowerCase = false from rfl,
      show crt.preserveAttributes = false from rfl,
      show selfClosingCheck ([] : Str) = false from rfl,
      show attribScan ([] : Str) = [] from rfl, List.map_nil,
      show buildAttribs [] = ([] : JObj) from rfl, Bool.false_eq_true, if_false]
    rw [show ('\n' :: (rtChildText ms ++ '<' :: '/' :: (r ++ '>' :: ['\n'])) : Str) =
      ['\n'] ++ rtChildText ms ++ '<' :: '/' :: (r ++ '>' :: ['\n']) from rfl]
    rw [child_loop text r hr ms fuel ['\n'] [] _
      (fun p hp => ⟨(hms p hp).1, (hms p hp).2.1, (hms p hp).2.2, rfl⟩) hnd (by decide)
      (by
        simp only [List.length_append, List.length_cons, List.length_nil] at hfuel ⊢
        omega)]
    dsimp only
    simp only [List.nil_append]
    have hcol : collapseLeaf crt (ms.map (fun p => (p.1, JVal.str p.2))) =
        JVal.obj (ms.map (fun p => (p.1, JVal.str p.2))) := by
      unfold collapseLeaf
      rw [getV_not_mem_keys (by
        rw [map_keys_entries]
        intro hm
        rw [List.mem_map] at hm
        obtain ⟨p, hp, heq⟩ := hm
        exact hdk p hp heq)]
      rw [show crt.emptyChildlessLeaf = false from rfl, Bool.false_and]
      rw [if_neg (by decide : ¬ (false = true))]
    rw [hcol]
    have hatt : attachLeaf crt true [] r (JVal.obj (ms.map (fun p => (p.1, JVal.str p.2)))) =
        [(r, JVal.obj (ms.map (fun p => (p.1, JVal.str p.2))))] := by
      unfold attachLeaf
      rw [show getV ([] : JObj) r = none from rfl]
      rw [show (crt.forceArrays && !true) = false from rfl]
      rw [if_neg (by decide : ¬ (false = true))]
      rfl
    rw [hatt]
    rw [if_pos trivial]

theorem root_step_nil (text r : Str) (hr : validTagName r = true) :
    ∀ (fuel : Nat) (st : PState),
    ('\n' :: ('<' :: (r ++ '/' :: '>' :: ['\n']))).length < fuel →
    parseNode crt text fuel ('\n' :: ('<' :: (r ++ '/' :: '>' :: ['\n'])))
      none true [] st =
      .ok ([(r, JVal.obj [])], ['\n'], { st with lastIndex := text.length - 1 }) := by
  intro fuel st hfuel
  cases fuel with
  | zero => exact absurd hfuel (by omega)
  | succ fuel =>
    rw [show parseNode crt text (fuel + 1) ('\n' :: ('<' :: (r ++ '/' :: '>' :: ['\n'])))
        none true [] st =
      parseNodeStep crt text (parseNode crt text fuel)
        ('\n' :: ('<' :: (r ++ '/' :: '>' :: ['\n']))) none true [] st from rfl]
    rw [parseNodeStep.eq_def]
    have hnt : nextTagS ('\n' :: ('<' :: (r ++ '/' :: '>' :: ['\n']))) =
        some (['\n'], r ++ ['/'], ['\n']) := by
      rw [show ('\n' :: ('<' :: (r ++ '/' :: '>' :: ['\n'])) : Str) =
        ['\n'] ++ '<' :: ((r ++ ['/']) ++ '>' :: ['\n']) from by simp]
      refine nextTagS_concat (r ++ ['/']) ['\n'] ['\n'] (by decide) ?_ (by simp)
      intro hm
      rcases List.mem_append.mp hm with h1 | h1
      · exact gt_not_in_name hr h1
      · simp at h1
    rw [hnt]
    dsimp only
    rw [all_no_any (show (['\n'] : Str).all isJsWs = true from by decide)]
    rw [isSpecialTag_selfclose hr, parseStandardTag_selfclose hr]
    simp only [Bool.false_eq_true, if_false]
    simp only [show crt.lowerCase = false from rfl,
      show crt.preserveAttributes = false from rfl,
      show selfClosingCheck (['/'] : Str) = true from rfl,
      show attribScan (['/'] : Str) = [] from rfl, List.map_nil,
      show buildAttribs [] = ([] : JObj) from rfl, Bool.false_eq_true, if_false]
    rw [if_pos trivial]
    dsimp only
    have hcol : collapseLeaf crt ([] : JObj) = JVal.obj [] := by
      unfold collapseLeaf
      rw [show getV ([] : JObj) crt.dataKey = none from rfl]
      rw [show crt.emptyChildlessLeaf = false from rfl, Bool.false_and]
      rw [if_neg (by decide : ¬ (false = true))]
    rw [hcol]
    have hatt : attachLeaf crt true [] r (JVal.obj []) = [(r, JVal.obj [])] := by
      unfold attachLeaf
      rw [show getV ([] : JObj) r = none from rfl]
      rw [show (crt.forceArrays && !true) = false from rfl]
      rw [if_neg (by decide : ¬ (false = true))]
      rfl
    rw [hatt]
    rw [if_pos trivial]
    rfl

theorem rt_round_trip (r : Str) (ms : List (Str × Str)) (h : rtNormal r ms) :
    runXmljs rtOpts (stringifyTop (rtTree r ms)) =
      .ok ⟨rtTree r ms, [], [xmlPiBody], [], some r⟩ := by
  obtain ⟨hr, hrd, hnd, hsort, hms⟩ := h
  unfold runXmljs runXML
  rw [show mkCfg rtOpts false = crt from rfl]
  by_cases hne : ms = []
  · subst hne
    rw [stringifyTop_flat_nil r]
    rw [if_neg (by simp [xmlHeaderStr] : ¬ ((xmlHeaderStr ++ '\n' :: '<' ::
      (r ++ '/' :: '>' :: ['\n'])).isEmpty = true))]
    rw [show parseNode crt (xmlHeaderStr ++ '\n' :: '<' :: (r ++ '/' :: '>' :: ['\n']))
        ((xmlHeaderStr ++ '\n' :: '<' :: (r ++ '/' :: '>' :: ['\n'])).length + 1)
        (xmlHeaderStr ++ '\n' :: '<' :: (r ++ '/' :: '>' :: ['\n'])) none true [] initPState =
      parseNodeStep crt (xmlHeaderStr ++ '\n' :: '<' :: (r ++ '/' :: '>' :: ['\n']))
        (parseNode crt (xmlHeaderStr ++ '\n' :: '<' :: (r ++ '/' :: '>' :: ['\n']))
          (xmlHeaderStr ++ '\n' :: '<' :: (r ++ '/' :: '>' :: ['\n'])).length)
        (xmlHeaderStr ++ '\n' :: '<' :: (r ++ '/' :: '>' :: ['\n'])) none true [] initPState
      from rfl]
    rw [parseNodeStep.eq_def]
    have hnt1 : nextTagS (xmlHeaderStr ++ '\n' :: '<' :: (r ++ '/' :: '>' :: ['\n'])) =
        some ([], xmlPiBody, '\n' :: ('<' :: (r ++ '/' :: '>' :: ['\n']))) := by
      rw [show (xmlHeaderStr ++ '\n' :: '<' :: (r ++ '/' :: '>' :: ['\n']) : Str) =
        [] ++ '<' :: (xmlPiBody ++ '>' :: ('\n' :: ('<' :: (r ++ '/' :: '>' :: ['\n']))))
        from rfl]
      exact nextTagS_concat xmlPiBody [] _ (by simp) (by decide) (by decide)
    rw [hnt1]
    dsimp only
    simp only [List.any_nil, Bool.false_eq_true, if_false]
    rw [show isSpecialTag xmlPiBody = true from by decide]
    rw [if_pos (rfl : true = true)]
    rw [show isPITag xmlPiBody = true from by decide]
    rw [if_pos (rfl : true = true)]
    rw [show piNodeOk xmlPiBody = true from by decide]
    rw [if_pos (rfl : true = true)]
    rw [root_step_nil (xmlHeaderStr ++ '\n' :: '<' :: (r ++ '/' :: '>' :: ['\n'])) r hr
      (xmlHeaderStr ++ '\n' :: '<' :: (r ++ '/' :: '>' :: ['\n'])).length _ (by
        simp only [List.length_append, List.length_cons, List.length_nil]
        simp [xmlHeaderStr])]
    dsimp only
    have hdel : delV [(r, JVal.obj [])] crt.dataKey = [(r, JVal.obj [])] := by
      unfold delV
      rw [if_neg (by
        simp only [Bool.not_eq_true, beq_eq_false_iff_ne, ne_eq]
        intro he
        exact hrd he)]
      rfl
    rw [hdel]
    rw [show numKeys [(r, JVal.obj [])] = 1 from rfl]
    rw [if_neg (by decide : ¬ ((1 : Nat) > 1))]
    rw [show firstKey [(r, JVal.obj [])] = some r from rfl]
    dsimp only
    rw [show crt.preserveDocumentNode = true from rfl, Bool.or_true]
    rw [if_pos (rfl : true = true)]
    rfl
  · rw [stringifyTop_flat r ms hnd (fun p hp => ⟨(hms p hp).1, (hms p hp).2.1,
      (hms p hp).2.2.1⟩) hsort hne]
    rw [if_neg (by simp [xmlHeaderStr] : ¬ ((xmlHeaderStr ++ '\n' :: '<' ::
      (r ++ '>' :: '\n' :: (rtChildText ms ++ '<' :: '/' :: (r ++ '>' :: ['\n'])))).isEmpty
        = true))]
    rw [show parseNode crt (xmlHeaderStr ++ '\n' :: '<' ::
        (r ++ '>' :: '\n' :: (rtChildText ms ++ '<' :: '/' :: (r ++ '>' :: ['\n']))))
        ((xmlHeaderStr ++ '\n' :: '<' ::
          (r ++ '>' :: '\n' :: (rtChildText ms ++ '<' :: '/' ::
            (r ++ '>' :: ['\n'])))).length + 1)
        (xmlHeaderStr ++ '\n' :: '<' ::
          (r ++ '>' :: '\n' :: (rtChildText ms ++ '<' :: '/' :: (r ++ '>' :: ['\n']))))
        none true [] initPState =
      parseNodeStep crt (xmlHeaderStr ++ '\n' :: '<' ::
          (r ++ '>' :: '\n' :: (rtChildText ms ++ '<' :: '/' :: (r ++ '>' :: ['\n']))))
        (parseNode crt (xmlHeaderStr ++ '\n' :: '<' ::
          (r ++ '>' :: '\n' :: (rtChildText ms ++ '<' :: '/' :: (r ++ '>' :: ['\n']))))
          (xmlHeaderStr ++ '\n' :: '<' ::
            (r ++ '>' :: '\n' :: (rtChildText ms ++ '<' :: '/' ::
              (r ++ '>' :: ['\n'])))).length)
        (xmlHeaderStr ++ '\n' :: '<' ::
          (r ++ '>' :: '\n' :: (rtChildText ms ++ '<' :: '/' :: (r ++ '>' :: ['\n']))))
        none true [] initPState from rfl]
    rw [parseNodeStep.eq_def]
    have hnt1 : nextTagS (xmlHeaderStr ++ '\n' :: '<' ::
        (r ++ '>' :: '\n' :: (rtChildText ms ++ '<' :: '/' :: (r ++ '>' :: ['\n'])))) =
        some ([], xmlPiBody, '\n' :: ('<' ::
          (r ++ '>' :: '\n' :: (rtChildText ms ++ '<' :: '/' :: (r ++ '>' :: ['\n']))))) := by
      rw [show (xmlHeaderStr ++ '\n' :: '<' ::
          (r ++ '>' :: '\n' :: (rtChildText ms ++ '<' :: '/' :: (r ++ '>' :: ['\n']))) : Str) =
        [] ++ '<' :: (xmlPiBody ++ '>' :: ('\n' :: ('<' ::
          (r ++ '>' :: '\n' :: (rtChildText ms ++ '<' :: '/' :: (r ++ '>' :: ['\n']))))))
        from rfl]
      exact nextTagS_concat xmlPiBody [] _ (by simp) (by decide) (by decide)
    rw [hnt1]
    dsimp only
    simp only [List.any_nil, Bool.false_eq_true, if_false]
    rw [show isSpecialTag xmlPiBody = true from by decide]
    rw [if_pos (rfl : true = true)]
    rw [show isPITag xmlPiBody = true from by decide]
    rw [if_pos (rfl : true = true)]
    rw [show piNodeOk xmlPiBody = true from by decide]
    rw [if_pos (rfl : true = true)]
    rw [root_step (xmlHeaderStr ++ '\n' :: '<' ::
        (r ++ '>' :: '\n' :: (rtChildText ms ++ '<' :: '/' :: (r ++ '>' :: ['\n'])))) r hr
      ms (fun p hp => ⟨(hms p hp).1, (hms p hp).2.2.2.1, (hms p hp).2.2.2.2⟩) hnd
      (fun p hp => (hms p hp).2.2.1)
      (xmlHeaderStr ++ '\n' :: '<' ::
        (r ++ '>' :: '\n' :: (rtChildText ms ++ '<' :: '/' :: (r ++ '>' :: ['\n'])))).length
      _ (by
        simp only [List.length_append, List.length_cons, List.length_nil]
        simp [xmlHeaderStr])]
    dsimp only
    have hdel : delV [(r, JVal.obj (ms.map (fun p => (p.1, JVal.str p.2))))] crt.dataKey =
        [(r, JVal.obj (ms.map (fun p => (p.1, JVal.str p.2))))] := by
      unfold delV
      rw [if_neg (by
        simp only [Bool.not_eq_true, beq_eq_false_iff_ne, ne_eq]
        intro he
        exact hrd he)]
      rfl
    rw [hdel]
    rw [show numKeys [(r, JVal.obj (ms.map (fun p => (p.1, JVal.str p.2))))] = 1 from rfl]
    rw [if_neg (by decide : ¬ ((1 : Nat) > 1))]
    rw [show firstKey [(r, JVal.obj (ms.map (fun p => (p.1, JVal.str p.2))))] = some r
      from rfl]
    dsimp only
    rw [show crt.preserveDocumentNode = true from rfl, Bool.or_true]
    rw [if_pos (rfl : true = true)]
    rfl

/-! ## Concrete claim evaluations -/

/-- C3: the claim states that parsing `<a/><b/>` fails with the
multiple-top-level-nodes error.  The code does not: the root-level loop
breaks as soon as the first top-level element is attached
(`if (this.error() || (branch === this.tree)) break;`, line 189), so
`<b/>` is silently ignored, the `numKeys(this.tree) > 1` guard of line
207 can never fire, and parsing succeeds with zero errors, document
node `a` and the empty tree. -/
theorem c3_multi_root_parses_without_error :
    runXmljs defaultOpts (("<a/><b/>").toList) =
      .ok ⟨.obj [], [], [], [], some (("a").toList)⟩ := rfl

/-- C4 counterexample: the claim states that
`<a><![CDATA[<b>&amp;]]></a>` yields `a == "<b>&amp;"`.  In fact line
103 applies `decodeEntities` to the CDATA payload, so the parse yields
`a == "<b>&"`, which differs from `"<b>&amp;"`. -/
theorem c4_cdata_counterexample :
    runXmljs defaultOpts (("<a><![CDATA[<b>&amp;]]></a>").toList) =
      .ok ⟨.str (("<b>&").toList), [], [], [], some (("a").toList)⟩ ∧
    ("<b>&").toList ≠ ("<b>&amp;").toList := ⟨rfl, by decide⟩

/-- C4 amended: parsing `<a><![CDATA[<b>&amp;]]></a>` yields
`a == "<b>&"` — the CDATA payload is not interpreted as markup (the
`<b>` stays literal text), but entity decoding IS applied to it. -/
theorem c4_cdata_amended :
    runXmljs defaultOpts (("<a><![CDATA[<b>&amp;]]></a>").toList) =
      .ok ⟨.str (("<b>&").toList), [], [], [], some (("a").toList)⟩ := rfl

/-- C5: repeated same-named children coalesce into an array in document
order, a single occurrence stays scalar, and `forceArrays` wraps the
single occurrence into a one-element array (but never the root). -/
theorem c5_coalescing :
    runXmljs defaultOpts (("<a><x>1</x><x>2</x><x>3</x></a>").toList) =
      .ok ⟨.obj [(("x").toList,
             .arr [.str (("1").toList), .str (("2").toList), .str (("3").toList)])],
           [], [], [], some (("a").toList)⟩ ∧
    runXmljs defaultOpts (("<a><x>1</x></a>").toList) =
      .ok ⟨.obj [(("x").toList, .str (("1").toList))],
           [], [], [], some (("a").toList)⟩ ∧
    runXmljs { forceArrays := true } (("<a><x>1</x></a>").toList) =
      .ok ⟨.obj [(("x").toList, .arr [.str (("1").toList)])],
           [], [], [], some (("a").toList)⟩ :=
  ⟨rfl, rfl, rfl⟩

/-- C10: parsing the empty string succeeds with no error: the
constructor skips `parse()` entirely for falsy text, so the tree is the
empty mapping, the error count is 0, `documentNodeName` stays `''`, and
the convenience entry point returns the empty mapping. -/
theorem c10_empty_input :
    runXmljs defaultOpts [] = .ok ⟨.obj [], [], [], [], some []⟩ ∧
    parseConvG false [] defaultOpts = .val (.obj []) := ⟨rfl, rfl⟩

/-- C6 counterexample: on the failing input `<a>` the convenience entry
point does not return the formatted last-error string in place of a
tree: `throwParseError` throws and `function parse` has no catch, so
the call raises an exception carrying that string instead of returning
a value. -/
theorem c6_throw_counterexample :
    parseConvG false (("<a>").toList) defaultOpts =
      .exn (("Parse Error: Missing closing tag (expected </a>) on line 1: <a>").toList) ∧
    (ConvRes.exn (("Parse Error: Missing closing tag (expected </a>) on line 1: <a>").toList) ≠
      ConvRes.val (.str (("Parse Error: Missing closing tag (expected </a>) on line 1: <a>").toList))) :=
  ⟨rfl, fun h => ConvRes.noConfusion h⟩

/-- C7 counterexample: the claim states that `encode(data)` is emitted
inline only when the element's sole content is the data entry, and that
otherwise the serialiser recurses into every other valid key.  For the
element `{_Data: "x", b: "y"}` the data entry is not the only content,
yet line 502 tests only truthiness of `node["_Data"]`, emits the data
inline and drops the child `b` entirely: the output contains no `<b>`. -/
theorem c7_stringify_counterexample :
    stringify (.obj [(("_Data").toList, .str (("x").toList)),
                     (("b").toList, .str (("y").toList))])
        (some (("a").toList)) 1 ['\t'] ['\n'] true = ("\t<a>x</a>\n").toList ∧
    ¬ (("<b>").toList <:+: ("\t<a>x</a>\n").toList) := ⟨rfl, by decide⟩

/-- C8: the greedy sub-scans are bounded and fail fast.  Each of the
three terminator scans (comment, inline DTD, CDATA), run with the fuel
bound `scanUntil` derives from the remaining source length, never
exhausts its fuel: it either succeeds with the terminator genuinely
matched and the cursor within the source, or reports the unclosed state,
in which case the terminator really is absent from the accumulated tag.
On concrete inputs whose terminators never appear, parsing raises the
corresponding fatal error once the source is exhausted. -/
theorem c8_subscan_bounded_termination :
    (∀ tag s : Str,
      match scanUntil endComment tag s with
      | .ok t r => endComment t = true ∧ r.length ≤ s.length
      | .unclosed t => endComment t = false
      | .fuelOut => False) ∧
    (∀ tag s : Str,
      match scanUntil endDTD tag s with
      | .ok t r => endDTD t = true ∧ r.length ≤ s.length
      | .unclosed t => endDTD t = false
      | .fuelOut => False) ∧
    (∀ tag s : Str,
      match scanUntil endCDATA tag s with
      | .ok t r => endCDATA t = true ∧ r.length ≤ s.length
      | .unclosed t => endCDATA t = false
      | .fuelOut => False) ∧
    (∃ st, runXmljs defaultOpts (("<a><!-- foo > bar").toList) =
      .thrown (("Parse Error: Unclosed comment tag on line 1: <!-- foo >").toList) st) ∧
    (∃ st, runXmljs defaultOpts (("<a><![CDATA[ x > y").toList) =
      .thrown (("Parse Error: Unclosed CDATA tag on line 1: <![CDATA[ x >").toList) st) ∧
    (∃ st, runXmljs defaultOpts (("<a><!DOCTYPE d [ x > y").toList) =
      .thrown (("Parse Error: Unclosed DTD tag on line 1: <!DOCTYPE d [ x >").toList) st) :=
  ⟨fun tag s => scanUntil_spec endComment tag s,
   fun tag s => scanUntil_spec endDTD tag s,
   fun tag s => scanUntil_spec endCDATA tag s,
   ⟨_, rfl⟩, ⟨_, rfl⟩, ⟨_, rfl⟩⟩

/-- C2: the entity codec round-trips.  For every string `s` (in
particular every string over literal `&`, `<`, `>`, `"`, `'` and
ordinary characters), `decodeEntities (encodeEntities s) = s`, and
likewise for attribute text `decodeEntities (encodeAttribEntities s) = s`;
so both encoders are injective and decoding is their left inverse. -/
theorem c2_entity_codec_roundtrip :
    (∀ s : Str, decodeEntities (encodeEntities s) = s) ∧
    (∀ s : Str, decodeEntities (encodeAttribEntities s) = s) :=
  ⟨fun s => by rw [encode_cmap]; exact decode_encode_tbl3 s,
   fun s => by rw [encodeAttrib_cmap]; exact decode_encode_tbl5 s⟩

/-- C7 amended: for every Element node (at a non-root indent, where the
per-element emission rule applies), `stringify` emits it self-closed
(`/>`) when it has no content beyond the attributes entry; emits
`encode(data)` inline before the closing tag when the data entry is
present and truthy (a non-empty string or any object) — even when other
child keys exist, which are then dropped; and otherwise recurses, in
sorted key order, into every other key whose name matches the
valid-tag-name pattern, skipping the attributes key and silently
skipping any key that is not a syntactically valid tag name. -/
theorem c7_stringify_cases (m : JObj) (n : Str) (indent : Nat) (indentStr eol : Str)
    (sort : Bool) (hind : indent ≠ 0) :
    stringify (.obj m) (some n) indent indentStr eol sort =
      (let indentText := (List.replicate indent indentStr).flatten
       let attribsXml :=
         match getV m (("_Attribs").toList) with
         | some avv =>
           (if sort then sortKeys (jsKeysV avv) else jsKeysV avv).foldl
             (fun acc k =>
               acc ++ ' ' :: (k ++ '=' :: '"' :: (encodeAttribJ (jsGetV avv k) ++ ['"']))) []
         | none => []
       let openPart := indentText ++ '<' :: (n ++ attribsXml)
       let hasAttribs := if (getV m (("_Attribs").toList)).isSome then 1 else 0
       if numKeys m ≤ hasAttribs then
         openPart ++ ("/>").toList ++ eol
       else if truthyO (getV m (("_Data").toList)) then
         openPart ++ '>' :: (encodeJ (getV m (("_Data").toList)) ++ ("</").toList ++ n ++ '>' :: eol)
       else
         openPart ++ '>' :: eol ++
           ((if sort then sortKeys (m.map (·.1)) else m.map (·.1)).foldl
             (fun acc k =>
               if !(k == ("_Attribs").toList) && validTagName k then
                 acc ++ stringify ((getV m k).getD (.str [])) (some k) (indent + 1) indentStr eol sort
               else acc) []) ++
           indentText ++ ("</").toList ++ n ++ '>' :: eol) := by
  have hsz : jsize (JVal.obj m) = jsizeM m + 1 := by simp [jsize]; omega
  show stringifyF (jsize (JVal.obj m)) (some (JVal.obj m)) (some n) indent indentStr eol sort = _
  rw [hsz]
  simp only [stringifyF]
  rw [if_neg hind]
  dsimp only
  by_cases hnk : numKeys m > (if (getV m (("_Attribs").toList)).isSome then 1 else 0)
  · rw [if_pos hnk, if_neg (by omega : ¬ numKeys m ≤ (if (getV m (("_Attribs").toList)).isSome then 1 else 0))]
    by_cases hdt : truthyO (getV m (("_Data").toList))
    · rw [if_pos hdt, if_pos hdt]
      simp [nameStr]
    · rw [if_neg hdt, if_neg hdt]
      have hfold : List.foldl
          (fun acc k =>
            if (!(k == ("_Attribs").toList) && validTagName k) = true then
              acc ++ stringifyF (jsizeM m) (jsGetV (JVal.obj m) k) (some k) (indent + 1) indentStr eol sort
            else acc) []
          (if sort = true then sortKeys (m.map (·.1)) else m.map (·.1)) =
        List.foldl
          (fun acc k =>
            if (!(k == ("_Attribs").toList) && validTagName k) = true then
              acc ++ stringify ((getV m k).getD (.str [])) (some k) (indent + 1) indentStr eol sort
            else acc) []
          (if sort = true then sortKeys (m.map (·.1)) else m.map (·.1)) := by
        apply List.foldl_ext
        intro acc k hk
        by_cases hvk : (!(k == ("_Attribs").toList) && validTagName k) = true
        · rw [if_pos hvk, if_pos hvk]
          congr 1
          have hkmem : k ∈ m.map (·.1) := by
            by_cases hsort : sort
            · rw [if_pos hsort] at hk; exact mem_sortKeys.mp hk
            · rw [if_neg hsort] at hk; exact hk
          obtain ⟨w, hw⟩ := getV_isSome_of_mem_keys hkmem
          have hwlt : jsize w < jsize (.obj m) := jsize_getV hw
          show stringifyF (jsizeM m) (jsGetV (.obj m) k) _ _ _ _ _ = _
          rw [show jsGetV (.obj m) k = getV m k from rfl, hw]
          show stringifyF (jsizeM m) (some w) _ _ _ _ _ =
               stringifyF (jsize w) (some w) _ _ _ _ _
          exact stringifyF_irrel (jsizeM m) (jsize w) (some w) (some k) (indent + 1) indentStr eol sort
            (by simp [jsizeO]; omega) (by simp [jsizeO])
        · rw [if_neg hvk, if_neg hvk]
      rw [hfold]
      simp [nameStr]
  · rw [if_neg hnk, if_pos (by omega : numKeys m ≤ (if (getV m (("_Attribs").toList)).isSome then 1 else 0))]
    simp [nameStr]

/-- Witness for `c7_stringify_cases` at the concrete element
`{b: "y"}` under name `a` at indent 1. -/
theorem c7_stringify_cases_witness :
    stringify (.obj [(("b").toList, .str (("y").toList))]) (some (("a").toList)) 1
      ['\t'] ['\n'] true = ("\t<a>\n\t\t<b>y</b>\n\t</a>\n").toList := by
  rw [c7_stringify_cases _ _ 1 _ _ _ (by decide)]
  rfl

/-- C6 amended: the convenience entry point never returns the formatted
last-error string in place of a tree.  On every input, either the parse
succeeds with an empty error list and `parse` returns the tree, or
`throwParseError` raises an exception (uncaught by `parse`) whose
message is exactly the formatted last error of the non-empty error
list; the fuel bound chosen by the model is never exhausted.  This
holds for both implementation copies and every configuration. -/
theorem c6_error_flow (emptyLeaf : Bool) (opts : XMLOpts) (text : Str) :
    match runXML emptyLeaf opts text with
    | .ok inst => inst.errors = [] ∧ parseConvG emptyLeaf text opts = .val inst.tree
    | .thrown m st => st.errors ≠ [] ∧ m = getLastError st.errors ∧
        parseConvG emptyLeaf text opts = .exn m
    | .fuelOut => False := by
  have h := runXML_spec emptyLeaf opts text
  cases hr : runXML emptyLeaf opts text with
  | ok inst =>
    rw [hr] at h
    refine ⟨h, ?_⟩
    unfold parseConvG
    rw [hr]
    simp [h]
  | thrown m st =>
    rw [hr] at h
    refine ⟨h.1, h.2, ?_⟩
    unfold parseConvG
    rw [hr]
  | fuelOut =>
    rw [hr] at h
    exact h

/-- C9 (counterexample): the two copies are not behaviourally equivalent.
On `<a/>` the src/xml.js copy attaches `{}` for the childless,
attribute-less, data-less element `a`, while the part_000 copy (whose
`XML.parse` empties such a leaf to `''`) attaches `""`; the resulting
trees differ, so the claim that both parses produce the same tree for
every input and configuration fails. -/
theorem c9_childless_counterexample :
    runXmljs defaultOpts (("<a/>").toList) =
      .ok ⟨.obj [], [], [], [], some (("a").toList)⟩ ∧
    runPart000 defaultOpts (("<a/>").toList) =
      .ok ⟨.str [], [], [], [], some (("a").toList)⟩ ∧
    JVal.obj [] ≠ JVal.str [] :=
  ⟨rfl, rfl, fun h => JVal.noConfusion h⟩

/-- C9 (amended): for every options record and input text such that the
(case-adjusted) data key does not occur as a substring of the
(case-adjusted) text, the two copies' parses agree: they throw the same
error with the same final state, or both run out of fuel, or both
succeed with identical errors, PI node lists, DTD node lists and
document node name, and with trees equal up to replacing the xml.js
childless-leaf value `{}` by the part_000 value `""` (the `LeafRel`
relation). -/
theorem c9_copies_agree (opts : XMLOpts) (text : Str)
    (H : ¬ (mkCfg opts false).dataKey <:+:
      (if opts.lowerCase then toLowerStr text else text)) :
    match runXmljs opts text, runPart000 opts text with
    | .ok i1, .ok i2 =>
        LeafRel i1.tree i2.tree ∧ i1.errors = i2.errors ∧ i1.piNodeList = i2.piNodeList ∧
        i1.dtdNodeList = i2.dtdNodeList ∧ i1.documentNodeName = i2.documentNodeName
    | .thrown m1 st1, .thrown m2 st2 => m1 = m2 ∧ st1 = st2
    | .fuelOut, .fuelOut => True
    | _, _ => False :=
  runXML_sim opts text H

/-- C9 (witness): the amended equivalence applied to the default options
and the input `<a/>`, whose text does not contain the data key `_Data`. -/
theorem c9_copies_agree_witness :
    (¬ (mkCfg defaultOpts false).dataKey <:+:
      (if defaultOpts.lowerCase then toLowerStr (("<a/>").toList) else (("<a/>").toList))) ∧
    (match runXmljs defaultOpts (("<a/>").toList), runPart000 defaultOpts (("<a/>").toList) with
     | .ok i1, .ok i2 =>
        LeafRel i1.tree i2.tree ∧ i1.errors = i2.errors ∧ i1.piNodeList = i2.piNodeList ∧
        i1.dtdNodeList = i2.dtdNodeList ∧ i1.documentNodeName = i2.documentNodeName
     | .thrown m1 st1, .thrown m2 st2 => m1 = m2 ∧ st1 = st2
     | .fuelOut, .fuelOut => True
     | _, _ => False) :=
  ⟨by decide, c9_copies_agree defaultOpts (("<a/>").toList) (by decide)⟩

/-- C1 (counterexample): the unrestricted round trip fails. The tree
`{ a: { _Data: "x", b: "y" } }` has only valid-name keys, yet
serialising emits `<a>x</a>` (stringify line 502 tests only the
truthiness of the data entry and drops the other children), so parsing
the output back — preserving the document node so the root key is kept —
returns `{ a: "x" }`, which differs from the original tree by the loss
of the child `b`, a change no documented collapsing or coalescing
normalisation accounts for. -/
theorem c1_round_trip_counterexample :
    runXmljs rtOpts (stringifyTop (JVal.obj [(("a").toList,
      JVal.obj [(("_Data").toList, JVal.str (("x").toList)),
                (("b").toList, JVal.str (("y").toList))])])) =
      .ok ⟨JVal.obj [(("a").toList, JVal.str (("x").toList))], [], [xmlPiBody], [],
        some (("a").toList)⟩ ∧
    JVal.obj [(("a").toList, JVal.str (("x").toList))] ≠
      JVal.obj [(("a").toList, JVal.obj [(("_Data").toList, JVal.str (("x").toList)),
        (("b").toList, JVal.str (("y").toList))])] :=
  ⟨rfl, by simp⟩

/-- C1 (amended): the round trip holds exactly on flat normalised trees.
For every document tree `{ r: { k1: v1, ..., kn: vn } }` in round-trip
normal form — valid, distinct, sorted child tag names avoiding the
reserved attributes/data keys, a valid root name other than the data
key, and non-empty trimmed string leaf values — parsing the serialised
text with the document node preserved returns exactly the original
tree, with no errors, the XML declaration as the only processing
instruction, and the root name as document node name. -/
theorem c1_flat_round_trip (r : Str) (ms : List (Str × Str)) (h : rtNormal r ms) :
    runXmljs rtOpts (stringifyTop (rtTree r ms)) =
      .ok ⟨rtTree r ms, [], [xmlPiBody], [], some r⟩ :=
  rt_round_trip r ms h

/-- C1 (witness): the amended round trip applied to the concrete tree
`{ a: { b: "y", c: "z w" } }`. -/
theorem c1_flat_round_trip_witness :
    rtNormal (("a").toList) [(("b").toList, ("y").toList), (("c").toList, ("z w").toList)] ∧
    runXmljs rtOpts (stringifyTop (rtTree (("a").toList)
      [(("b").toList, ("y").toList), (("c").toList, ("z w").toList)])) =
      .ok ⟨rtTree (("a").toList) [(("b").toList, ("y").toList), (("c").toList, ("z w").toList)],
        [], [xmlPiBody], [], some (("a").toList)⟩ :=
  ⟨by unfold rtNormal; decide, c1_flat_round_trip _ _ (by unfold rtNormal; decide)⟩
